import Mathlib

/-!
# Verification of the pathfinding engine (`src/main.py`)

Shallow embedding of `PathfindingEngine` from `main.py`: the occupancy
grid, neighbor enumeration, the lazy-deletion priority-queue search loop
(`run`), path reconstruction, and the yielded snapshot/heap-sample stream.

Modelling conventions:
* coordinates are pairs of naturals (numpy indices that occur in a run are
  nonnegative; the constructor model below uses `Int` where Python/numpy
  negative indices matter);
* the Python `heapq` binary heap is modelled as a list of entries together
  with a `popMin` operation removing one minimal entry under the tuple
  (lexicographic) order, and `heapq.nsmallest 50` as sorting and taking 50
  (its documented semantics);
* Python floats that arise (`new_cost + heuristic * 1.5`) are exact dyadic
  rationals at the magnitudes reachable here, so priorities are `ℚ`;
* dictionaries are association lists with unique keys (`alookup`/`aupdate`);
* the numpy `visual_grid` is a function `Nat → Nat → Nat` updated pointwise;
* the generator is a small-step machine `stepFull`; one expansion iteration
  (or one reconstruction iteration, or the final DONE yield) is one step.
  A `KeyError`/broken-parent access is the absorbing `Phase.errSt` state.
-/

abbrev Coord := Nat × Nat

abbrev Entry := ℚ × Coord

/-- The fixed occupancy grid plus distinguished cells, as used by the engine:
`grid x y = 0` means open, anything else is a wall.  `grid` is the array
after the constructor has forced `start` and `goal` to `0`. -/
structure GridM where
  size : Nat
  grid : Nat → Nat → Nat
  start : Coord
  goal : Coord

/-- Bounds-and-openness check of `get_neighbors`:
`0 <= x < self.size and 0 <= y < self.size and self.grid[x, y] == 0`. -/
def cellOpen (g : GridM) (x y : Int) : Bool :=
  0 ≤ x && x < (g.size : Int) && 0 ≤ y && y < (g.size : Int) &&
    g.grid x.toNat y.toNat == 0

/-- `PathfindingEngine.get_neighbors`: directions `(0,1),(1,0),(0,-1),(-1,0)`
applied in order, keeping in-bounds open cells. -/
def get_neighbors (g : GridM) (node : Coord) : List Coord :=
  let x : Int := node.1
  let y : Int := node.2
  ([(x, y + 1), (x + 1, y), (x, y - 1), (x - 1, y)] : List (Int × Int)).filterMap
    (fun c => if cellOpen g c.1 c.2 then some (c.1.toNat, c.2.toNat) else none)

/-- `PathfindingEngine.heuristic`: Manhattan distance. -/
def heuristic (a b : Coord) : Nat :=
  ((a.1 : Int) - (b.1 : Int)).natAbs + ((a.2 : Int) - (b.2 : Int)).natAbs

/-- Python tuple comparison on `(priority, (row, col))` heap entries. -/
def entryLe (a b : Entry) : Bool :=
  a.1 < b.1 || (a.1 == b.1 && (a.2.1 < b.2.1 ||
    (a.2.1 == b.2.1 && a.2.2 ≤ b.2.2)))

/-- Propositional form of the heap-entry order. -/
def entryLE (a b : Entry) : Prop := entryLe a b = true

instance : DecidableRel entryLE := fun a b => by
  unfold entryLE; infer_instance

/-- Minimum entry of `e :: l` under the tuple order (what `heappop` removes). -/
def minE (e : Entry) : List Entry → Entry
  | [] => e
  | x :: xs => minE (if entryLe e x then e else x) xs

/-- Association-list lookup modelling Python `dict` access. -/
def alookup {α : Type} (k : Coord) : List (Coord × α) → Option α
  | [] => none
  | (k', v) :: rest => if k = k' then some v else alookup k rest

/-- Association-list update modelling Python `dict` assignment. -/
def aupdate {α : Type} (k : Coord) (v : α) : List (Coord × α) → List (Coord × α)
  | [] => [(k, v)]
  | (k', v') :: rest =>
    if k = k' then (k, v) :: rest else (k', v') :: aupdate k v rest

/-- Pointwise update of the visual grid (`self.visual_grid[c] = val`). -/
def updV (v : Nat → Nat → Nat) (c : Coord) (k : Nat) : Nat → Nat → Nat :=
  fun x y => if x = c.1 ∧ y = c.2 then k else v x y

/-- Mutable state of one `run` invocation. -/
structure EState where
  pq : List Entry
  came_from : List (Coord × Option Coord)
  cost : List (Coord × Nat)
  visual : Nat → Nat → Nat
  explored : Nat

/-- Priority pushed for a relaxed neighbor:
`priority = new_cost` plus, in `astar` mode, `heuristic(next, END) * 1.5`. -/
def prioOf (g : GridM) (algo : String) (new_cost : Nat) (n : Coord) : ℚ :=
  if algo == "astar" then (new_cost : ℚ) + (heuristic n g.goal : ℚ) * 1.5
  else (new_cost : ℚ)

/-- One iteration of the `for next_node in self.get_neighbors(current)` body.
`cc` is `cost_so_far[current]` (constant over the loop, since `current` is
never its own neighbor). -/
def relaxOne (g : GridM) (algo : String) (current : Coord) (cc : Nat)
    (st : EState) (n : Coord) : EState :=
  let new_cost := cc + 1
  let fire := match alookup n st.cost with
    | none => true
    | some old => new_cost < old
  if fire then
    { st with
      cost := aupdate n new_cost st.cost
      pq := (prioOf g algo new_cost n, n) :: st.pq
      came_from := aupdate n (some current) st.came_from
      visual := if n = g.goal then st.visual else updV st.visual n 2 }
  else st

/-- Lines 92–94: mark the popped node visited and count it, unless it is
the start node. -/
def markVisit (g : GridM) (current : Coord) (st : EState) : EState :=
  if current = g.start then st
  else { st with visual := updV st.visual current 3, explored := st.explored + 1 }

/-- `heapq.nsmallest(50, pq)` and the projection `[item[0] for item in ...]`:
the 50 smallest entries in ascending tuple order, mapped to priorities. -/
def sampleList (pq : List Entry) : List ℚ :=
  ((List.insertionSort entryLE pq).take 50).map Prod.fst

/-- Control position of the generator between yields. -/
inductive Phase where
  | expand
  | reconAt (curr : Coord)
  | preDone
  | done
  | errSt
deriving DecidableEq

/-- Full machine state: control position plus run state. -/
structure MState where
  phase : Phase
  st : EState

/-- The second component of a yield: a priority sample list (possibly `[]`
during reconstruction) or the `["DONE"]` marker. -/
inductive Sig where
  | prios (l : List ℚ)
  | doneTag
deriving DecidableEq

abbrev Yield := (Nat → Nat → Nat) × Sig

/-- Transition taken when the expansion loop ends (goal popped or `pq`
exhausted): enter reconstruction iff `END_NODE in came_from`. -/
def enterRecon (g : GridM) (st : EState) : MState :=
  if (alookup g.goal st.came_from).isSome then ⟨.reconAt g.goal, st⟩
  else ⟨.preDone, st⟩

/-- One machine step of `PathfindingEngine.run`, returning the next state
and the yield it produces (if any): one full expansion iteration, one
reconstruction iteration, or the final DONE yield. -/
def stepFull (g : GridM) (algo : String) (s : MState) : MState × Option Yield :=
  match s.phase with
  | .expand =>
    match s.st.pq with
    | [] => (enterRecon g s.st, none)
    | e :: rest =>
      let sample := sampleList (e :: rest)
      let m := minE e rest
      let current := m.2
      let st1 := { s.st with pq := (e :: rest).erase m }
      if current = g.goal then (enterRecon g st1, none)
      else
        let st2 := markVisit g current st1
        match alookup current st2.cost with
        | some cc =>
          let st3 := (get_neighbors g current).foldl (relaxOne g algo current cc) st2
          (⟨.expand, st3⟩, some (st3.visual, .prios sample))
        | none =>
          if get_neighbors g current = [] then
            (⟨.expand, st2⟩, some (st2.visual, .prios sample))
          else (⟨.errSt, st2⟩, none)
  | .reconAt curr =>
    if curr = g.start then
      (⟨.preDone, { s.st with visual := updV s.st.visual g.start 4 }⟩, none)
    else
      let st1 := { s.st with visual := updV s.st.visual curr 4 }
      match alookup curr st1.came_from with
      | some (some c) => (⟨.reconAt c, st1⟩, some (st1.visual, .prios []))
      | some none => (⟨.errSt, st1⟩, none)
      | none => (⟨.errSt, st1⟩, none)
  | .preDone => (⟨.done, s.st⟩, some (s.st.visual, .doneTag))
  | .done => (⟨.done, s.st⟩, none)
  | .errSt => (⟨.errSt, s.st⟩, none)

/-- Run-state initialization of `run`. -/
def initE (g : GridM) : EState :=
  { pq := [(0, g.start)]
    came_from := [(g.start, none)]
    cost := [(g.start, 0)]
    visual := fun x y => g.grid x y
    explored := 0 }

def initM (g : GridM) : MState := ⟨.expand, initE g⟩

def nextS (g : GridM) (algo : String) (s : MState) : MState :=
  (stepFull g algo s).1

/-- State after `n` machine steps from initialization. -/
def iterM (g : GridM) (algo : String) : Nat → MState
  | 0 => initM g
  | n + 1 => nextS g algo (iterM g algo n)

/-- Breadth-first reachable set: coordinates reachable from `start` through
open cells in at most `n` unit moves (the independent BFS of the spec). -/
def reachSet (g : GridM) : Nat → List Coord
  | 0 => [g.start]
  | n + 1 =>
    ((reachSet g n) ++ (reachSet g n).flatMap (get_neighbors g)).dedup

/-- `isDist g v d`: the BFS distance from `start` to `v` is exactly `d`. -/
def isDist (g : GridM) (v : Coord) (d : Nat) : Prop :=
  v ∈ reachSet g d ∧ ∀ k < d, v ∉ reachSet g k

instance (g : GridM) (v : Coord) (d : Nat) : Decidable (isDist g v d) := by
  unfold isDist; infer_instance

/-- `v` is reachable from `start` through open cells. -/
def reachable (g : GridM) (v : Coord) : Prop := ∃ n, v ∈ reachSet g n

/-! ## Basic constructor model (for the configuration claim)

`PathfindingEngine.__init__(size, density)` generalized over the module
constants `START_NODE`/`END_NODE`.  Construction performs
`np.random.choice([0,1], size=(size,size), p=[1-density, density])` and then
`grid[start] = 0; grid[goal] = 0`.  It completes without an exception iff
the array creation succeeds (`size` nonnegative, probability vector valid)
and both forced assignments are in numpy's index range, which accepts
negative indices down to `-size` (wrap-around). -/

/-- numpy index validity for one coordinate pair on a `size × size` array. -/
def npIndexOk (size : Int) (c : Int × Int) : Bool :=
  (-size ≤ c.1 && c.1 < size) && (-size ≤ c.2 && c.2 < size)

/-- Whether `PathfindingEngine.__init__` completes without raising. -/
def initSucceeds (size : Int) (density : ℚ) (start goal : Int × Int) : Bool :=
  0 ≤ size && (0 ≤ density && density ≤ 1) && npIndexOk size start && npIndexOk size goal

/-! ## The heap-entry order -/

theorem entryLE_iff (a b : Entry) :
    entryLE a b ↔ a.1 < b.1 ∨ (a.1 = b.1 ∧ (a.2.1 < b.2.1 ∨
      (a.2.1 = b.2.1 ∧ a.2.2 ≤ b.2.2))) := by
  simp [entryLE, entryLe, Bool.or_eq_true, Bool.and_eq_true,
    decide_eq_true_eq, beq_iff_eq]

theorem entryLE_total (a b : Entry) : entryLE a b ∨ entryLE b a := by
  rw [entryLE_iff, entryLE_iff]
  rcases lt_trichotomy a.1 b.1 with h | h | h
  · exact Or.inl (Or.inl h)
  · rcases lt_trichotomy a.2.1 b.2.1 with h2 | h2 | h2
    · exact Or.inl (Or.inr ⟨h, Or.inl h2⟩)
    · rcases le_total a.2.2 b.2.2 with h3 | h3
      · exact Or.inl (Or.inr ⟨h, Or.inr ⟨h2, h3⟩⟩)
      · exact Or.inr (Or.inr ⟨h.symm, Or.inr ⟨h2.symm, h3⟩⟩)
    · exact Or.inr (Or.inr ⟨h.symm, Or.inl h2⟩)
  · exact Or.inr (Or.inl h)

theorem entryLE_trans {a b c : Entry} (h1 : entryLE a b) (h2 : entryLE b c) :
    entryLE a c := by
  rw [entryLE_iff] at h1 h2 ⊢
  rcases h1 with h1 | ⟨e1, h1⟩
  · rcases h2 with h2 | ⟨e2, _⟩
    · exact Or.inl (h1.trans h2)
    · exact Or.inl (e2 ▸ h1)
  · rcases h2 with h2 | ⟨e2, h2⟩
    · exact Or.inl (e1 ▸ h2)
    · refine Or.inr ⟨e1.trans e2, ?_⟩
      rcases h1 with h1 | ⟨f1, h1⟩
      · rcases h2 with h2 | ⟨f2, _⟩
        · exact Or.inl (h1.trans h2)
        · exact Or.inl (f2 ▸ h1)
      · rcases h2 with h2 | ⟨f2, h2⟩
        · exact Or.inl (f1 ▸ h2)
        · exact Or.inr ⟨f1.trans f2, h1.trans h2⟩

theorem entryLE_antisymm {a b : Entry} (h1 : entryLE a b) (h2 : entryLE b a) :
    a = b := by
  rw [entryLE_iff] at h1 h2
  have hp : a.1 = b.1 := by
    rcases h1 with h1 | ⟨e1, _⟩ <;> rcases h2 with h2 | ⟨e2, _⟩
    · exact absurd (h1.trans h2) (lt_irrefl _)
    · exact e2.symm
    · exact e1
    · exact e1
  have hx : a.2.1 = b.2.1 := by
    rcases h1 with h1 | ⟨e1, h1⟩
    · exact absurd hp (ne_of_lt h1)
    rcases h2 with h2 | ⟨e2, h2⟩
    · exact absurd hp.symm (ne_of_lt h2)
    rcases h1 with h1 | ⟨f1, _⟩
    · rcases h2 with h2 | ⟨f2, _⟩
      · exact absurd (h1.trans h2) (lt_irrefl _)
      · exact f2.symm
    · exact f1
  have hy : a.2.2 = b.2.2 := by
    rcases h1 with h1 | ⟨e1, h1⟩
    · exact absurd hp (ne_of_lt h1)
    rcases h2 with h2 | ⟨e2, h2⟩
    · exact absurd hp.symm (ne_of_lt h2)
    rcases h1 with h1 | ⟨f1, h1⟩
    · exact absurd hx (ne_of_lt h1)
    rcases h2 with h2 | ⟨f2, h2⟩
    · exact absurd hx.symm (ne_of_lt h2)
    exact le_antisymm h1 h2
  have h2a : a.2 = b.2 := Prod.ext hx hy
  calc a = (a.1, a.2) := rfl
    _ = (b.1, b.2) := by rw [hp, h2a]
    _ = b := rfl

instance : IsTotal Entry entryLE := ⟨entryLE_total⟩

instance : IsTrans Entry entryLE := ⟨fun _ _ _ => entryLE_trans⟩

theorem entryLE_refl (a : Entry) : entryLE a a := by
  rw [entryLE_iff]; exact Or.inr ⟨rfl, Or.inr ⟨rfl, le_refl _⟩⟩

/-! ## Minimum extraction -/

theorem minE_mem (e : Entry) (l : List Entry) : minE e l ∈ e :: l := by
  induction l generalizing e with
  | nil => simp [minE]
  | cons x xs ih =>
    rw [minE]
    by_cases hx : entryLe e x = true
    · rw [if_pos hx]
      rcases List.mem_cons.1 (ih e) with h | h
      · rw [h]; exact List.mem_cons_self _ _
      · exact List.mem_cons_of_mem _ (List.mem_cons_of_mem _ h)
    · rw [if_neg hx]
      rcases List.mem_cons.1 (ih x) with h | h
      · rw [h]; exact List.mem_cons_of_mem _ (List.mem_cons_self _ _)
      · exact List.mem_cons_of_mem _ (List.mem_cons_of_mem _ h)

theorem minE_le (e : Entry) (l : List Entry) :
    ∀ x ∈ e :: l, entryLE (minE e l) x := by
  induction l generalizing e with
  | nil =>
    intro x hx
    rcases List.mem_cons.1 hx with h | h
    · exact h ▸ entryLE_refl _
    · simp at h
  | cons y ys ih =>
    intro x hx
    rw [minE]
    by_cases hey : entryLe e y = true
    · rw [if_pos hey]
      have hme : entryLE (minE e ys) e := ih e e (List.mem_cons_self _ _)
      rcases List.mem_cons.1 hx with h | h
      · rw [h]; exact hme
      rcases List.mem_cons.1 h with h2 | h2
      · rw [h2]; exact entryLE_trans hme hey
      · exact ih e x (List.mem_cons_of_mem _ h2)
    · rw [if_neg hey]
      have hye : entryLE y e := (entryLE_total e y).resolve_left hey
      have hmy : entryLE (minE y ys) y := ih y y (List.mem_cons_self _ _)
      rcases List.mem_cons.1 hx with h | h
      · rw [h]; exact entryLE_trans hmy hye
      rcases List.mem_cons.1 h with h2 | h2
      · rw [h2]; exact hmy
      · exact ih y x (List.mem_cons_of_mem _ h2)

/-! ## Association-list lemmas -/

theorem alookup_aupdate_self {α : Type} (k : Coord) (v : α) (l : List (Coord × α)) :
    alookup k (aupdate k v l) = some v := by
  induction l with
  | nil => simp [alookup, aupdate]
  | cons p rest ih =>
    obtain ⟨k2, v2⟩ := p
    by_cases h : k = k2
    · simp [aupdate, h, alookup]
    · simp [aupdate, h, alookup, ih]

theorem alookup_aupdate_ne {α : Type} {k k2 : Coord} (hne : k ≠ k2) (v : α)
    (l : List (Coord × α)) : alookup k (aupdate k2 v l) = alookup k l := by
  induction l with
  | nil => simp [alookup, aupdate, hne]
  | cons p rest ih =>
    obtain ⟨k3, v3⟩ := p
    by_cases h : k2 = k3
    · subst h
      simp [aupdate, alookup, hne]
    · by_cases h2 : k = k3 <;> simp [aupdate, h, alookup, h2, ih]

theorem alookup_mem {α : Type} {k : Coord} {v : α} {l : List (Coord × α)}
    (h : alookup k l = some v) : (k, v) ∈ l := by
  induction l with
  | nil => simp [alookup] at h
  | cons p rest ih =>
    obtain ⟨k2, v2⟩ := p
    by_cases h2 : k = k2
    · simp only [alookup, if_pos h2] at h
      rw [h2, Option.some_inj.1 h]
      exact List.mem_cons_self _ _
    · simp only [alookup, if_neg h2] at h
      exact List.mem_cons_of_mem _ (ih h)

/-- Keys of an association list. -/
def akeys {α : Type} (l : List (Coord × α)) : List Coord := l.map Prod.fst

theorem alookup_isSome_iff {α : Type} (k : Coord) (l : List (Coord × α)) :
    (alookup k l).isSome = true ↔ k ∈ akeys l := by
  induction l with
  | nil => simp [alookup, akeys]
  | cons p rest ih =>
    obtain ⟨k2, v2⟩ := p
    by_cases h : k = k2 <;> simp [alookup, h, akeys, ih]
  
theorem alookup_eq_none_iff {α : Type} (k : Coord) (l : List (Coord × α)) :
    alookup k l = none ↔ k ∉ akeys l := by
  rw [← alookup_isSome_iff]
  cases alookup k l <;> simp

theorem akeys_aupdate_mem {α : Type} {k : Coord} (v : α) {l : List (Coord × α)}
    (h : k ∈ akeys l) : akeys (aupdate k v l) = akeys l := by
  induction l with
  | nil => simp [akeys] at h
  | cons p rest ih =>
    obtain ⟨k2, v2⟩ := p
    simp only [akeys, List.map_cons] at h
    by_cases h2 : k = k2
    · simp [aupdate, h2, akeys]
    · have hr : k ∈ akeys rest := by
        rcases List.mem_cons.1 h with h3 | h3
        · exact absurd h3 h2
        · simpa [akeys] using h3
      simp only [aupdate, if_neg h2, akeys, List.map_cons]
      have h4 := ih hr
      simp only [akeys] at h4
      rw [h4]

theorem akeys_aupdate_not_mem {α : Type} {k : Coord} (v : α) {l : List (Coord × α)}
    (h : k ∉ akeys l) : akeys (aupdate k v l) = akeys l ++ [k] := by
  induction l with
  | nil => simp [akeys, aupdate]
  | cons p rest ih =>
    obtain ⟨k2, v2⟩ := p
    have h2 : k ≠ k2 := by
      intro he
      exact h (he ▸ List.mem_cons_self _ _)
    have hr : k ∉ akeys rest := fun hm => h (List.mem_cons_of_mem _ hm)
    simp only [aupdate, if_neg h2, akeys, List.map_cons] at ih ⊢
    rw [ih hr]
    simp [akeys]

theorem akeys_aupdate_nodup {α : Type} (k : Coord) (v : α) {l : List (Coord × α)}
    (h : (akeys l).Nodup) : (akeys (aupdate k v l)).Nodup := by
  by_cases hm : k ∈ akeys l
  · rw [akeys_aupdate_mem v hm]; exact h
  · rw [akeys_aupdate_not_mem v hm]
    simpa [List.nodup_append] using ⟨h, hm⟩

theorem length_aupdate_mem {α : Type} {k : Coord} (v : α) {l : List (Coord × α)}
    (h : k ∈ akeys l) : (aupdate k v l).length = l.length := by
  have := akeys_aupdate_mem v h (l := l)
  have h1 : (akeys (aupdate k v l)).length = (akeys l).length := by rw [this]
  simpa [akeys] using h1

theorem length_aupdate_not_mem {α : Type} {k : Coord} (v : α) {l : List (Coord × α)}
    (h : k ∉ akeys l) : (aupdate k v l).length = l.length + 1 := by
  have := akeys_aupdate_not_mem v h (l := l)
  have h1 : (akeys (aupdate k v l)).length = (akeys l ++ [k]).length := by rw [this]
  simpa [akeys] using h1

/-- Sum of the stored numeric values (for the termination potential). -/
def costSum (l : List (Coord × Nat)) : Nat := (l.map Prod.snd).sum

theorem costSum_aupdate_none {k : Coord} (v : Nat) {l : List (Coord × Nat)}
    (h : alookup k l = none) : costSum (aupdate k v l) = costSum l + v := by
  induction l with
  | nil => simp [costSum, aupdate]
  | cons p rest ih =>
    obtain ⟨k2, v2⟩ := p
    by_cases h2 : k = k2
    · simp [alookup, h2] at h
    · simp only [alookup, if_neg h2] at h
      simp only [aupdate, if_neg h2, costSum, List.map_cons, List.sum_cons]
      have := ih h
      simp only [costSum] at this
      omega

theorem costSum_aupdate_some {k : Coord} (v : Nat) {l : List (Coord × Nat)} {old : Nat}
    (hnd : (akeys l).Nodup) (h : alookup k l = some old) :
    costSum (aupdate k v l) + old = costSum l + v := by
  induction l with
  | nil => simp [alookup] at h
  | cons p rest ih =>
    obtain ⟨k2, v2⟩ := p
    by_cases h2 : k = k2
    · subst h2
      simp only [alookup] at h
      rw [if_pos trivial] at h
      rw [Option.some_inj] at h
      subst h
      simp only [aupdate, if_pos trivial, costSum, List.map_cons, List.sum_cons]
      omega
    · simp only [alookup, if_neg h2] at h
      simp only [aupdate, if_neg h2, costSum, List.map_cons, List.sum_cons]
      have hnd2 : (akeys rest).Nodup := by
        simpa [akeys] using (List.nodup_cons.1 (by simpa [akeys] using hnd)).2
      have := ih hnd2 h
      simp only [costSum] at this
      omega

/-! ## Observables of a run -/

/-- Number of reconstruction iterations (path edges drawn) among the first
`n` machine steps: each marks one non-start cell of the path and follows one
parent link. -/
def reconActive (g : GridM) (s : MState) : Bool :=
  match s.phase with
  | .reconAt c => decide (c ≠ g.start)
  | _ => false

def reconCount (g : GridM) (algo : String) (n : Nat) : Nat :=
  ((List.range n).filter (fun i => reconActive g (iterM g algo i))).length

/-- Whether the machine step taken from `s` pops a node that is neither the
start (line 92 guard) nor the goal (the terminating pop). -/
def popFlag (g : GridM) (s : MState) : Bool :=
  match s.phase, s.st.pq with
  | .expand, e :: rest =>
    decide ((minE e rest).2 ≠ g.start) && decide ((minE e rest).2 ≠ g.goal)
  | _, _ => false

/-- Number of counted pops (non-start, non-terminal) among the first `n`
machine steps. -/
def popCount (g : GridM) (algo : String) (n : Nat) : Nat :=
  ((List.range n).filter (fun i => popFlag g (iterM g algo i))).length

/-- All cells of the `size × size` board. -/
def boardCells (size : Nat) : List Coord :=
  (List.range size).flatMap fun x => (List.range size).map fun y => (x, y)

/-- `c` was marked visited (value 3) at some point in the first `n` steps. -/
def everVisited (g : GridM) (algo : String) (n : Nat) (c : Coord) : Bool :=
  (List.range (n + 1)).any fun i => (iterM g algo i).st.visual c.1 c.2 == 3

/-- Number of distinct coordinates ever marked visited in the first `n` steps. -/
def distinctVisited (g : GridM) (algo : String) (n : Nat) : Nat :=
  ((boardCells g.size).filter (everVisited g algo n)).length

/-- Occupancy function of a grid given by a list of wall cells. -/
def wallGrid (walls : List Coord) : Nat → Nat → Nat :=
  fun x y => if (x, y) ∈ walls then 1 else 0

/-- 7×7 grid on which weighted mode re-relaxes an already visited cell. -/
def gDownEx : GridM :=
  ⟨7, wallGrid [(0,5),(1,1),(1,2),(1,5),(2,4),(2,5),(3,2),(3,3),(4,5),(4,6),
    (5,2),(6,1),(6,2),(6,5),(6,6)], (6,0), (0,6)⟩

/-- 6×6 grid on which weighted mode pops a coordinate twice. -/
def gStaleEx : GridM :=
  ⟨6, wallGrid [(0,2),(0,3),(1,3),(2,1),(2,4),(3,4),(3,5),(4,2),(4,3),(5,4)],
    (2,0), (2,5)⟩

/-- The spec's 5×5 obstacle-free scenario. -/
def gEmpty5 : GridM := ⟨5, wallGrid [], (0,0), (4,4)⟩

/-! ## Effect of one relaxation -/

/-- The relaxation guard of lines 99: fire iff no recorded cost or a strictly
better cost. -/
def fires (cc : Nat) (cost : List (Coord × Nat)) (n : Coord) : Prop :=
  alookup n cost = none ∨ ∃ old, alookup n cost = some old ∧ cc + 1 < old

instance (cc : Nat) (cost : List (Coord × Nat)) (n : Coord) :
    Decidable (fires cc cost n) := by
  unfold fires; infer_instance

/-- The updated state produced by a firing relaxation. -/
def relaxUpd (g : GridM) (algo : String) (current : Coord) (cc : Nat)
    (st : EState) (n : Coord) : EState :=
  { st with
    cost := aupdate n (cc + 1) st.cost
    pq := (prioOf g algo (cc + 1) n, n) :: st.pq
    came_from := aupdate n (some current) st.came_from
    visual := if n = g.goal then st.visual else updV st.visual n 2 }

theorem relaxOne_fires (g : GridM) (algo : String) (current : Coord) (cc : Nat)
    (st : EState) (n : Coord) (h : fires cc st.cost n) :
    relaxOne g algo current cc st n = relaxUpd g algo current cc st n := by
  rw [relaxOne]
  rcases h with h | ⟨old, h, hlt⟩
  · rw [h]
    rfl
  · rw [h]
    rw [if_pos (decide_eq_true hlt)]
    rfl

theorem relaxOne_skip (g : GridM) (algo : String) (current : Coord) (cc : Nat)
    (st : EState) (n : Coord) (h : ¬ fires cc st.cost n) :
    relaxOne g algo current cc st n = st := by
  rw [relaxOne]
  rcases hc : alookup n st.cost with _ | old
  · exact absurd (Or.inl hc) h
  · have hle : ¬ (cc + 1 < old) := fun hlt => h (Or.inr ⟨old, hc, hlt⟩)
    exact if_neg (by simpa using hle)

theorem relaxOne_cases (g : GridM) (algo : String) (current : Coord) (cc : Nat)
    (st : EState) (n : Coord) :
    (fires cc st.cost n ∧
      relaxOne g algo current cc st n = relaxUpd g algo current cc st n) ∨
    (¬ fires cc st.cost n ∧ relaxOne g algo current cc st n = st) := by
  by_cases h : fires cc st.cost n
  · exact Or.inl ⟨h, relaxOne_fires g algo current cc st n h⟩
  · exact Or.inr ⟨h, relaxOne_skip g algo current cc st n h⟩

/-- Pointwise cost evolution over one relaxation: unchanged, or set to
`cc + 1` at `n` when the guard fires. -/
theorem relaxOne_cost_lookup (g : GridM) (algo : String) (current : Coord)
    (cc : Nat) (st : EState) (n m : Coord) :
    alookup m (relaxOne g algo current cc st n).cost = alookup m st.cost ∨
    (m = n ∧ fires cc st.cost n ∧
      alookup m (relaxOne g algo current cc st n).cost = some (cc + 1)) := by
  rcases relaxOne_cases g algo current cc st n with ⟨hf, he⟩ | ⟨hf, he⟩
  · by_cases hm : m = n
    · subst hm
      exact Or.inr ⟨rfl, hf, by rw [he]; exact alookup_aupdate_self m (cc + 1) st.cost⟩
    · exact Or.inl (by rw [he]; exact alookup_aupdate_ne hm (cc + 1) st.cost)
  · exact Or.inl (by rw [he])

/-- Cost entries only improve (pointwise, allowing new keys). -/
def costMono (A B : List (Coord × Nat)) : Prop :=
  ∀ m v, alookup m A = some v → ∃ w, alookup m B = some w ∧ w ≤ v

theorem costMono_refl (A : List (Coord × Nat)) : costMono A A :=
  fun _ v h => ⟨v, h, le_refl v⟩

theorem costMono_trans {A B C : List (Coord × Nat)} (h1 : costMono A B)
    (h2 : costMono B C) : costMono A C := by
  intro m v h
  obtain ⟨w, hw, hwv⟩ := h1 m v h
  obtain ⟨u, hu, huw⟩ := h2 m w hw
  exact ⟨u, hu, le_trans huw hwv⟩

theorem relaxOne_costMono (g : GridM) (algo : String) (current : Coord)
    (cc : Nat) (st : EState) (n : Coord) :
    costMono st.cost (relaxOne g algo current cc st n).cost := by
  intro m v h
  rcases relaxOne_cost_lookup g algo current cc st n m with he | ⟨hm, hf, he⟩
  · exact ⟨v, he ▸ h, le_refl v⟩
  · subst hm
    refine ⟨cc + 1, he, ?_⟩
    rcases hf with hf | ⟨old, hf, hlt⟩
    · rw [h] at hf; cases hf
    · rw [h] at hf
      exact le_of_lt (Option.some_inj.1 hf ▸ hlt)

/-- Generic fold over the neighbor list preserves `costMono`. -/
theorem foldRelax_costMono (g : GridM) (algo : String) (current : Coord)
    (cc : Nat) (ns : List Coord) (st : EState) :
    costMono st.cost ((ns.foldl (relaxOne g algo current cc) st).cost) := by
  induction ns generalizing st with
  | nil => exact costMono_refl _
  | cons n rest ih =>
    exact costMono_trans (relaxOne_costMono g algo current cc st n)
      (ih (relaxOne g algo current cc st n))

theorem relaxOne_explored (g : GridM) (algo : String) (current : Coord)
    (cc : Nat) (st : EState) (n : Coord) :
    (relaxOne g algo current cc st n).explored = st.explored := by
  rcases relaxOne_cases g algo current cc st n with ⟨_, he⟩ | ⟨_, he⟩
  · rw [he]
    rfl
  · rw [he]

theorem foldRelax_explored (g : GridM) (algo : String) (current : Coord)
    (cc : Nat) (ns : List Coord) (st : EState) :
    ((ns.foldl (relaxOne g algo current cc) st)).explored = st.explored := by
  induction ns generalizing st with
  | nil => rfl
  | cons n rest ih =>
    rw [List.foldl_cons, ih, relaxOne_explored]

/-- The fold only prepends pushed entries to the frontier. -/
theorem foldRelax_pq_prefix (g : GridM) (algo : String) (current : Coord)
    (cc : Nat) (ns : List Coord) (st : EState) :
    ∃ P, ((ns.foldl (relaxOne g algo current cc) st)).pq = P ++ st.pq := by
  induction ns generalizing st with
  | nil => exact ⟨[], rfl⟩
  | cons n rest ih =>
    rcases relaxOne_cases g algo current cc st n with ⟨_, he⟩ | ⟨_, he⟩
    · obtain ⟨P, hP⟩ := ih (relaxOne g algo current cc st n)
      refine ⟨P ++ [(prioOf g algo (cc + 1) n, n)], ?_⟩
      rw [List.foldl_cons, hP, he]
      simp [relaxUpd]
    · obtain ⟨P, hP⟩ := ih (relaxOne g algo current cc st n)
      exact ⟨P, by rw [List.foldl_cons, hP, he]⟩

/-! ## Per-step state evolution -/

theorem enterRecon_st (g : GridM) (st : EState) : (enterRecon g st).st = st := by
  rw [enterRecon]
  by_cases h : (alookup g.goal st.came_from).isSome = true
  · rw [if_pos h]
  · rw [if_neg h]

theorem step_explored (g : GridM) (algo : String) (s : MState) :
    (nextS g algo s).st.explored =
      s.st.explored + (if popFlag g s = true then 1 else 0) := by
  obtain ⟨ph, st⟩ := s
  cases ph with
  | expand =>
    rcases hpq : st.pq with _ | ⟨e, rest⟩
    · simp only [nextS, stepFull, hpq, popFlag]
      rw [enterRecon_st]
      simp
    · simp only [nextS, stepFull, hpq, popFlag]
      by_cases hg : (minE e rest).2 = g.goal
      · rw [if_pos hg]
        simp only [hg, decide_not]
        rw [enterRecon_st]
        simp
      · rw [if_neg hg]
        by_cases hs : (minE e rest).2 = g.start
        · simp only [markVisit, if_pos hs]
          rcases hc : alookup (minE e rest).2 st.cost with _ | cc
          · simp only [hc]
            by_cases hn : get_neighbors g (minE e rest).2 = []
            · rw [hs] at hn
              simp [hn, hs, hg]
            · rw [hs] at hn
              simp [hn, hs, hg]
          · simp only [hc, foldRelax_explored]
            simp [hs]
        · simp only [markVisit, if_neg hs]
          rcases hc : alookup (minE e rest).2 st.cost with _ | cc
          · simp only [hc]
            by_cases hn : get_neighbors g (minE e rest).2 = []
            · simp [hn, hs, hg]
            · simp [hn, hs, hg]
          · simp only [hc, foldRelax_explored]
            simp [hs, hg]
  | reconAt c =>
    simp only [nextS, stepFull, popFlag]
    by_cases h : c = g.start
    · rw [if_pos h]
      simp
    · rw [if_neg h]
      rcases alookup c st.came_from with _ | p
      · simp
      · rcases p with _ | p2 <;> simp
  | preDone => rfl
  | done => rfl
  | errSt => rfl

theorem markVisit_cost (g : GridM) (c : Coord) (st : EState) :
    (markVisit g c st).cost = st.cost := by
  rw [markVisit]
  by_cases h : c = g.start
  · rw [if_pos h]
  · rw [if_neg h]

theorem markVisit_pq (g : GridM) (c : Coord) (st : EState) :
    (markVisit g c st).pq = st.pq := by
  rw [markVisit]
  by_cases h : c = g.start
  · rw [if_pos h]
  · rw [if_neg h]

theorem markVisit_came (g : GridM) (c : Coord) (st : EState) :
    (markVisit g c st).came_from = st.came_from := by
  rw [markVisit]
  by_cases h : c = g.start
  · rw [if_pos h]
  · rw [if_neg h]

/-- Exhaustive description of one machine step taken from an expansion
state: frontier exhausted, goal popped, normal expansion, expansion with no
neighbors and a missing current cost, or the key-error transition. -/
theorem step_expand_cases (g : GridM) (algo : String) (s : MState)
    (hph : s.phase = .expand) :
    (s.st.pq = [] ∧ nextS g algo s = enterRecon g s.st) ∨
    (∃ e rest, s.st.pq = e :: rest ∧
      (((minE e rest).2 = g.goal ∧
        nextS g algo s =
          enterRecon g { s.st with pq := (e :: rest).erase (minE e rest) }) ∨
      ((minE e rest).2 ≠ g.goal ∧
        ∃ cc, alookup (minE e rest).2 s.st.cost = some cc ∧
          nextS g algo s = ⟨.expand,
            (get_neighbors g (minE e rest).2).foldl
              (relaxOne g algo (minE e rest).2 cc)
              (markVisit g (minE e rest).2
                { s.st with pq := (e :: rest).erase (minE e rest) })⟩) ∨
      ((minE e rest).2 ≠ g.goal ∧
        alookup (minE e rest).2 s.st.cost = none ∧
        get_neighbors g (minE e rest).2 = [] ∧
        nextS g algo s = ⟨.expand, markVisit g (minE e rest).2
          { s.st with pq := (e :: rest).erase (minE e rest) }⟩) ∨
      ((minE e rest).2 ≠ g.goal ∧
        alookup (minE e rest).2 s.st.cost = none ∧
        get_neighbors g (minE e rest).2 ≠ [] ∧
        nextS g algo s = ⟨.errSt, markVisit g (minE e rest).2
          { s.st with pq := (e :: rest).erase (minE e rest) }⟩))) := by
  obtain ⟨ph, st⟩ := s
  cases hph
  rcases hpq : st.pq with _ | ⟨e, rest⟩
  · exact Or.inl ⟨rfl, by simp only [nextS, stepFull, hpq]⟩
  · refine Or.inr ⟨e, rest, rfl, ?_⟩
    by_cases hg : (minE e rest).2 = g.goal
    · exact Or.inl ⟨hg, by simp only [nextS, stepFull, hpq, if_pos hg]⟩
    · rcases hc : alookup (minE e rest).2 st.cost with _ | cc
      · have hc2 : alookup (minE e rest).2
            (markVisit g (minE e rest).2
              { st with pq := (e :: rest).erase (minE e rest) }).cost = none := by
          rw [markVisit_cost]
          exact hc
        by_cases hn : get_neighbors g (minE e rest).2 = []
        · refine Or.inr (Or.inr (Or.inl ⟨hg, rfl, hn, ?_⟩))
          simp only [nextS, stepFull, hpq, if_neg hg, hc2, hn]
          rw [if_pos trivial]
        · refine Or.inr (Or.inr (Or.inr ⟨hg, rfl, hn, ?_⟩))
          simp only [nextS, stepFull, hpq, if_neg hg, hc2]
          rw [if_neg hn]
      · have hc2 : alookup (minE e rest).2
            (markVisit g (minE e rest).2
              { st with pq := (e :: rest).erase (minE e rest) }).cost = some cc := by
          rw [markVisit_cost]
          exact hc
        refine Or.inr (Or.inl ⟨hg, cc, rfl, ?_⟩)
        simp only [nextS, stepFull, hpq, if_neg hg, hc2]

/-- Exhaustive description of one machine step taken from a reconstruction
state. -/
theorem step_recon_cases (g : GridM) (algo : String) (s : MState) (c : Coord)
    (hph : s.phase = .reconAt c) :
    (c = g.start ∧ nextS g algo s =
      ⟨.preDone, { s.st with visual := updV s.st.visual g.start 4 }⟩) ∨
    (c ≠ g.start ∧ ∃ p, alookup c s.st.came_from = some (some p) ∧
      nextS g algo s = ⟨.reconAt p,
        { s.st with visual := updV s.st.visual c 4 }⟩) ∨
    (c ≠ g.start ∧ (alookup c s.st.came_from = some none ∨
        alookup c s.st.came_from = none) ∧
      nextS g algo s = ⟨.errSt,
        { s.st with visual := updV s.st.visual c 4 }⟩) := by
  obtain ⟨ph, st⟩ := s
  cases hph
  by_cases hs : c = g.start
  · exact Or.inl ⟨hs, by simp only [nextS, stepFull, if_pos hs]⟩
  · rcases hcf : alookup c st.came_from with _ | p
    · exact Or.inr (Or.inr ⟨hs, Or.inr rfl,
        by simp only [nextS, stepFull, if_neg hs, hcf]⟩)
    · rcases p with _ | p2
      · exact Or.inr (Or.inr ⟨hs, Or.inl rfl,
          by simp only [nextS, stepFull, if_neg hs, hcf]⟩)
      · exact Or.inr (Or.inl ⟨hs, p2, rfl,
          by simp only [nextS, stepFull, if_neg hs, hcf]⟩)

/-- Steps taken from the terminal-ish phases. -/
theorem step_preDone (g : GridM) (algo : String) (s : MState)
    (hph : s.phase = .preDone) : nextS g algo s = ⟨.done, s.st⟩ := by
  obtain ⟨ph, st⟩ := s
  cases hph
  rfl

theorem step_done (g : GridM) (algo : String) (s : MState)
    (hph : s.phase = .done) : nextS g algo s = ⟨.done, s.st⟩ := by
  obtain ⟨ph, st⟩ := s
  cases hph
  rfl

theorem step_errSt (g : GridM) (algo : String) (s : MState)
    (hph : s.phase = .errSt) : nextS g algo s = ⟨.errSt, s.st⟩ := by
  obtain ⟨ph, st⟩ := s
  cases hph
  rfl

/-- Recorded costs only ever improve across a machine step, in either mode. -/
theorem step_costMono (g : GridM) (algo : String) (s : MState) :
    costMono s.st.cost (nextS g algo s).st.cost := by
  rcases hph : s.phase with _ | c | _ | _ | _
  · rcases step_expand_cases g algo s hph with ⟨_, he⟩ | ⟨e, rest, _, hcase⟩
    · rw [he, enterRecon_st]
      exact costMono_refl _
    rcases hcase with ⟨_, he⟩ | ⟨_, cc, _, he⟩ | ⟨_, _, _, he⟩ | ⟨_, _, _, he⟩
    · rw [he, enterRecon_st]
      exact costMono_refl _
    · rw [he]
      have h2 := foldRelax_costMono g algo (minE e rest).2 cc
        (get_neighbors g (minE e rest).2)
        (markVisit g (minE e rest).2
          { s.st with pq := (e :: rest).erase (minE e rest) })
      rw [markVisit_cost] at h2
      exact h2
    · rw [he]
      rw [markVisit_cost]
      exact costMono_refl _
    · rw [he]
      rw [markVisit_cost]
      exact costMono_refl _
  · rcases step_recon_cases g algo s c hph with ⟨_, he⟩ | ⟨_, p, _, he⟩ | ⟨_, _, he⟩ <;>
      · rw [he]
        exact costMono_refl _
  · rw [step_preDone g algo s hph]
    exact costMono_refl _
  · rw [step_done g algo s hph]
    exact costMono_refl _
  · rw [step_errSt g algo s hph]
    exact costMono_refl _

/-- Costs only improve along the whole run. -/
theorem iterM_costMono (g : GridM) (algo : String) {i j : Nat} (hij : i ≤ j) :
    costMono (iterM g algo i).st.cost (iterM g algo j).st.cost := by
  induction j with
  | zero =>
    have h0 : i = 0 := Nat.le_zero.1 hij
    rw [h0]
    exact costMono_refl _
  | succ j ih =>
    rcases Nat.lt_or_ge i (j + 1) with h | h
    · have hj : i ≤ j := Nat.lt_succ_iff.1 h
      exact costMono_trans (ih hj) (step_costMono g algo (iterM g algo j))
    · have he : i = j + 1 := le_antisymm hij h
      rw [he]
      exact costMono_refl _

/-! ## Kernel evaluation of rational arithmetic

The Batteries rational operations are `@[irreducible]`; they are unsealed
here so that concrete runs (whose priorities are rationals) can be evaluated
by `decide`. -/

unseal Rat.add Rat.mul Rat.ofScientific Rat.inv Rat.sub

theorem popCount_succ (g : GridM) (algo : String) (n : Nat) :
    popCount g algo (n + 1) =
      popCount g algo n + (if popFlag g (iterM g algo n) = true then 1 else 0) := by
  rw [popCount, popCount, List.range_succ, List.filter_append]
  by_cases h : popFlag g (iterM g algo n) = true <;>
    simp [h]

theorem explored_eq_popCount (g : GridM) (algo : String) (n : Nat) :
    (iterM g algo n).st.explored = popCount g algo n := by
  induction n with
  | zero => simp [iterM, initM, initE, popCount]
  | succ n ih =>
    rw [iterM, step_explored, ih, popCount_succ]

/-! ## Claim C4 -/

/-- C4: at every point of a run, `expandedCount` (`nodes_explored`) equals
the number of pop operations performed so far whose popped coordinate is
neither the start nor the goal (the terminating goal pop is not counted),
including stale re-pops; and on a concrete 6×6 grid in weighted mode the
counter strictly exceeds the number of distinct coordinates ever marked
visited. -/
theorem c4_expanded_count_pops :
    (∀ (g : GridM) (algo : String) (n : Nat),
      (iterM g algo n).st.explored = popCount g algo n) ∧
    distinctVisited gStaleEx "astar" 11 < (iterM gStaleEx "astar" 11).st.explored :=
  ⟨explored_eq_popCount, by decide⟩

/-! ## Claim C6 -/

/-- C6: recorded best costs are monotone along any run in either mode:
a later recorded value for a coordinate is never larger than an earlier
one, and across one machine step a coordinate's recorded cost either stays
exactly the same or strictly decreases (the relaxation guard writes only
strictly smaller values, so an assignment of an equal or larger value never
happens). -/
theorem c6_strictly_decreasing_costs :
    (∀ (g : GridM) (algo : String) (i j : Nat), i ≤ j →
      ∀ (m : Coord) (v w : Nat), alookup m (iterM g algo i).st.cost = some v →
        alookup m (iterM g algo j).st.cost = some w → w ≤ v) ∧
    (∀ (g : GridM) (algo : String) (s : MState) (m : Coord) (v w : Nat),
      alookup m s.st.cost = some v →
        alookup m (nextS g algo s).st.cost = some w → w = v ∨ w < v) := by
  constructor
  · intro g algo i j hij m v w hv hw
    obtain ⟨u, hu, huv⟩ := iterM_costMono g algo hij m v hv
    rw [hw] at hu
    exact (Option.some_inj.1 hu.symm) ▸ huv
  · intro g algo s m v w hv hw
    obtain ⟨u, hu, huv⟩ := step_costMono g algo s m v hv
    rw [hw] at hu
    have he : u = w := (Option.some_inj.1 hu).symm
    subst he
    rcases lt_or_eq_of_le huv with h | h
    · exact Or.inr h
    · exact Or.inl h

/-- Witness for C6 at a concrete run: cell (0,1) of the obstacle-free 5×5
grid has recorded cost 1 at steps 2 and 4 of the uniform run. -/
theorem c6_strictly_decreasing_costs_witness :
    (2 : Nat) ≤ 4 ∧
    alookup (0, 1) (iterM gEmpty5 "dijkstra" 2).st.cost = some 1 ∧
    alookup (0, 1) (iterM gEmpty5 "dijkstra" 4).st.cost = some 1 ∧
    (1 : Nat) ≤ 1 :=
  ⟨by decide, by decide, by decide,
    c6_strictly_decreasing_costs.1 gEmpty5 "dijkstra" 2 4 (by decide) (0, 1) 1 1
      (by decide) (by decide)⟩

/-! ## Claim C2, counterexample part -/

/-- C2 counterexample: on a concrete 7×7 grid in weighted mode, cell (1,4)
is marked visited after step 15 and is reset to frontier (value 2) by the
relaxation in step 16 — a visited cell is downgraded back to frontier,
contradicting the claim for the weighted mode. -/
theorem c2_visited_downgraded_weighted :
    (iterM gDownEx "astar" 15).st.visual 1 4 = 3 ∧
    (iterM gDownEx "astar" 16).st.visual 1 4 = 2 ∧ (1, 4) ≠ gDownEx.goal :=
  ⟨by decide, by decide, by decide⟩

/-! ## Claim C3 -/

/-- The spec's notion of an in-range coordinate: `0 ≤ each < N`. -/
def specInRange (size : Int) (c : Int × Int) : Prop :=
  0 ≤ c.1 ∧ c.1 < size ∧ 0 ≤ c.2 ∧ c.2 < size

instance (size : Int) (c : Int × Int) : Decidable (specInRange size c) := by
  unfold specInRange; infer_instance

/-- C3 counterexample: with `size = 5` and `start = (-1, 0)` — out of bounds
in the spec's sense — construction nevertheless succeeds (numpy wraps the
negative index), so construction does not fail for every out-of-bounds
start coordinate. -/
theorem c3_negative_start_accepted :
    initSucceeds 5 0 (-1, 0) (0, 0) = true ∧ ¬ specInRange 5 (-1, 0) :=
  ⟨by decide, by decide⟩

/-- C3 amended: construction succeeds iff the density is a valid
probability and every start/goal component lies in numpy's accepted index
range `[-size, size)` (which forces `size > 0`); in particular it succeeds
for all spec-in-range parameters and fails fast for `size ≤ 0` or
components `≥ size` or `< -size`. -/
theorem c3_construction_characterization (size : Int) (d : ℚ) (s t : Int × Int) :
    (initSucceeds size d s t = true ↔
      (0 ≤ d ∧ d ≤ 1 ∧
        -size ≤ s.1 ∧ s.1 < size ∧ -size ≤ s.2 ∧ s.2 < size ∧
        -size ≤ t.1 ∧ t.1 < size ∧ -size ≤ t.2 ∧ t.2 < size)) ∧
    (0 ≤ d → d ≤ 1 → specInRange size s → specInRange size t →
      initSucceeds size d s t = true) := by
  constructor
  · rw [initSucceeds, npIndexOk, npIndexOk]
    simp only [Bool.and_eq_true, decide_eq_true_eq]
    constructor
    · rintro ⟨⟨⟨hsz, hd1, hd2⟩, hs⟩, ht⟩
      exact ⟨hd1, hd2, hs.1.1, hs.1.2, hs.2.1, hs.2.2, ht.1.1, ht.1.2,
        ht.2.1, ht.2.2⟩
    · rintro ⟨hd1, hd2, h1, h2, h3, h4, h5, h6, h7, h8⟩
      have hsz : 0 ≤ size := by
        rcases le_or_lt 0 size with h | h
        · exact h
        · exfalso
          omega
      exact ⟨⟨⟨hsz, hd1, hd2⟩, ⟨h1, h2⟩, h3, h4⟩, ⟨h5, h6⟩, h7, h8⟩
  · intro hd1 hd2 hs ht
    obtain ⟨a1, a2, a3, a4⟩ := hs
    obtain ⟨b1, b2, b3, b4⟩ := ht
    rw [initSucceeds, npIndexOk, npIndexOk]
    simp only [Bool.and_eq_true, decide_eq_true_eq]
    refine ⟨⟨⟨by omega, hd1, hd2⟩, ⟨by omega, a2⟩, by omega, a4⟩,
      ⟨by omega, b2⟩, by omega, b4⟩

/-- Witness for the amended C3: an in-range configuration is accepted. -/
theorem c3_construction_characterization_witness :
    (0 : ℚ) ≤ 1 ∧ specInRange 5 (0, 0) ∧ specInRange 5 (4, 4) ∧
    initSucceeds 5 1 (0, 0) (4, 4) = true :=
  ⟨by decide, by decide, by decide,
    (c3_construction_characterization 5 1 (0, 0) (4, 4)).2 (by decide)
      (by decide) (by decide) (by decide)⟩

/-! ## Claim C9 -/

theorem c9_first_step (g : GridM) (algo : String) (hsg : g.start ≠ g.goal)
    (hn : get_neighbors g g.start = []) :
    iterM g algo 1 = ⟨.expand,
      { pq := [], came_from := [(g.start, none)], cost := [(g.start, 0)],
        visual := fun x y => g.grid x y, explored := 0 }⟩ := by
  show nextS g algo (initM g) = _
  simp [nextS, stepFull, initM, initE, minE, markVisit, alookup, hn, hsg]

/-- C9: when every neighbor of the start cell is blocked (and the goal is a
different cell), the run pops only the start: after that single pop the
frontier is empty, and two machine steps later the terminal DONE state is
reached with `expandedCount = 0` and a completely unchanged grid (in
particular, zero path markings). -/
theorem c9_walled_in_start (g : GridM) (algo : String) (hsg : g.start ≠ g.goal)
    (hn : get_neighbors g g.start = []) :
    (iterM g algo 1).st.pq = [] ∧
    (iterM g algo 3).phase = Phase.done ∧
    (iterM g algo 3).st.explored = 0 ∧
    (∀ x y, (iterM g algo 3).st.visual x y = g.grid x y) := by
  have h1 := c9_first_step g algo hsg hn
  have h2 : iterM g algo 2 = ⟨.preDone,
      { pq := [], came_from := [(g.start, none)], cost := [(g.start, 0)],
        visual := fun x y => g.grid x y, explored := 0 }⟩ := by
    show nextS g algo (iterM g algo 1) = _
    rw [h1]
    have hgs : g.goal ≠ g.start := Ne.symm hsg
    simp [nextS, stepFull, enterRecon, alookup, hgs]
  have h3 : iterM g algo 3 = ⟨.done,
      { pq := [], came_from := [(g.start, none)], cost := [(g.start, 0)],
        visual := fun x y => g.grid x y, explored := 0 }⟩ := by
    show nextS g algo (iterM g algo 2) = _
    rw [h2]
    rfl
  refine ⟨by rw [h1], by rw [h3], by rw [h3], ?_⟩
  intro x y
  rw [h3]

/-- 3×3 grid whose start cell (1,1) has all four neighbors blocked. -/
def gWalledEx : GridM :=
  ⟨3, wallGrid [(0,1),(1,0),(1,2),(2,1)], (1,1), (0,0)⟩

/-- Witness for C9 on the concrete walled-in grid. -/
theorem c9_walled_in_start_witness :
    gWalledEx.start ≠ gWalledEx.goal ∧
    get_neighbors gWalledEx gWalledEx.start = [] ∧
    ((iterM gWalledEx "dijkstra" 1).st.pq = [] ∧
      (iterM gWalledEx "dijkstra" 3).phase = Phase.done ∧
      (iterM gWalledEx "dijkstra" 3).st.explored = 0 ∧
      (∀ x y, (iterM gWalledEx "dijkstra" 3).st.visual x y =
        gWalledEx.grid x y)) :=
  ⟨by decide, by decide,
    c9_walled_in_start gWalledEx "dijkstra" (by decide) (by decide)⟩

/-! ## Claim C5 -/

theorem entryLE_fst_le {a b : Entry} (h : entryLE a b) : a.1 ≤ b.1 := by
  rw [entryLE_iff] at h
  rcases h with h | ⟨h, _⟩
  · exact le_of_lt h
  · exact le_of_eq h

theorem sampleList_length_le (pq : List Entry) :
    (sampleList pq).length ≤ 50 := by
  rw [sampleList, List.length_map]
  calc ((List.insertionSort entryLE pq).take 50).length
      ≤ 50 := by
        rw [List.length_take]
        exact min_le_left _ _

theorem sampleList_sorted (pq : List Entry) :
    List.Sorted (fun a b : ℚ => a ≤ b) (sampleList pq) := by
  rw [sampleList]
  have hs : List.Sorted entryLE (List.insertionSort entryLE pq) :=
    List.sorted_insertionSort entryLE pq
  have ht : List.Sorted entryLE ((List.insertionSort entryLE pq).take 50) :=
    hs.sublist (List.take_sublist _ _)
  exact List.Pairwise.map Prod.fst (fun a b h => entryLE_fst_le h) ht

theorem sampleList_lowest (pq : List Entry) :
    ∃ low high, List.Perm pq (low ++ high) ∧
      sampleList pq = low.map Prod.fst ∧
      ∀ a ∈ low, ∀ b ∈ high, entryLE a b := by
  refine ⟨(List.insertionSort entryLE pq).take 50,
    (List.insertionSort entryLE pq).drop 50, ?_, rfl, ?_⟩
  · rw [List.take_append_drop]
    exact (List.perm_insertionSort entryLE pq).symm
  · have hs : List.Pairwise entryLE (List.insertionSort entryLE pq) :=
      List.sorted_insertionSort entryLE pq
    rw [← List.take_append_drop 50 (List.insertionSort entryLE pq)] at hs
    exact (List.pairwise_append.1 hs).2.2

theorem step_expand_yield (g : GridM) (algo : String) (s : MState)
    (e : Entry) (rest : List Entry) (hph : s.phase = .expand)
    (hpq : s.st.pq = e :: rest) :
    ∀ v sg, (stepFull g algo s).2 = some (v, sg) →
      sg = Sig.prios (sampleList (e :: rest)) := by
  obtain ⟨ph, st⟩ := s
  cases hph
  intro v sg
  have hpq2 : st.pq = e :: rest := hpq
  simp only [stepFull, hpq2]
  by_cases hg : (minE e rest).2 = g.goal
  · rw [if_pos hg]
    rw [enterRecon]
    by_cases h2 : (alookup g.goal (markVisit g (minE e rest).2
        { st with pq := (e :: rest).erase (minE e rest) }).came_from).isSome = true
    · intro h
      by_cases h3 : (alookup g.goal { st with
          pq := (e :: rest).erase (minE e rest) }.came_from).isSome = true
      · rw [if_pos h3] at h
        cases h
      · rw [if_neg h3] at h
        cases h
    · intro h
      by_cases h3 : (alookup g.goal { st with
          pq := (e :: rest).erase (minE e rest) }.came_from).isSome = true
      · rw [if_pos h3] at h
        cases h
      · rw [if_neg h3] at h
        cases h
  · rw [if_neg hg]
    rcases hc : alookup (minE e rest).2 (markVisit g (minE e rest).2
        { st with pq := (e :: rest).erase (minE e rest) }).cost with _ | cc
    · by_cases hn : get_neighbors g (minE e rest).2 = []
      · rw [if_pos hn]
        intro h
        have h2 := (Prod.mk.injEq _ _ _ _ ▸ Option.some_inj.1 h).2
        exact h2.symm
      · rw [if_neg hn]
        intro h
        cases h
    · intro h
      have h2 := (Prod.mk.injEq _ _ _ _ ▸ Option.some_inj.1 h).2
      exact h2.symm

theorem step_expand_pq (g : GridM) (algo : String) (s : MState)
    (e : Entry) (rest : List Entry) (hph : s.phase = .expand)
    (hpq : s.st.pq = e :: rest) :
    ∃ P, (nextS g algo s).st.pq = P ++ (e :: rest).erase (minE e rest) := by
  rcases step_expand_cases g algo s hph with ⟨hpq2, _⟩ | ⟨e2, rest2, hpq2, hcase⟩
  · rw [hpq] at hpq2
    cases hpq2
  rw [hpq] at hpq2
  obtain ⟨he, hr⟩ : e2 = e ∧ rest2 = rest := by
    have h1 := (List.cons.injEq _ _ _ _ ▸ hpq2)
    exact ⟨h1.1.symm, h1.2.symm⟩
  rw [he, hr] at hcase
  rcases hcase with ⟨_, he⟩ | ⟨_, cc, _, he⟩ | ⟨_, _, _, he⟩ | ⟨_, _, _, he⟩
  · rw [he, enterRecon]
    by_cases h2 : (alookup g.goal { s.st with
        pq := (e :: rest).erase (minE e rest) }.came_from).isSome = true
    · rw [if_pos h2]
      exact ⟨[], rfl⟩
    · rw [if_neg h2]
      exact ⟨[], rfl⟩
  · rw [he]
    obtain ⟨P, hP⟩ := foldRelax_pq_prefix g algo (minE e rest).2 cc
      (get_neighbors g (minE e rest).2)
      (markVisit g (minE e rest).2 { s.st with pq := (e :: rest).erase (minE e rest) })
    rw [markVisit_pq] at hP
    exact ⟨P, hP⟩
  · rw [he]
    refine ⟨[], ?_⟩
    rw [List.nil_append]
    exact markVisit_pq g _ _
  · rw [he]
    refine ⟨[], ?_⟩
    rw [List.nil_append]
    exact markVisit_pq g _ _

/-- C5: for every expansion step from a nonempty frontier, the sample
emitted with the snapshot is exactly the sorted 50-smallest projection of
the frontier as it stood before the pop; it has at most 50 entries, is
sorted ascending, consists of lowest-priority entries (every sampled entry
is below every unsampled one), and producing it removes nothing: the step's
resulting frontier is the old frontier minus exactly the popped minimum
plus the pushed relaxations. -/
theorem c5_frontier_sample (g : GridM) (algo : String) (s : MState)
    (e : Entry) (rest : List Entry) (hph : s.phase = .expand)
    (hpq : s.st.pq = e :: rest) :
    (∀ v sg, (stepFull g algo s).2 = some (v, sg) →
      sg = Sig.prios (sampleList (e :: rest))) ∧
    (sampleList (e :: rest)).length ≤ 50 ∧
    List.Sorted (fun a b : ℚ => a ≤ b) (sampleList (e :: rest)) ∧
    (∃ low high, List.Perm (e :: rest) (low ++ high) ∧
      sampleList (e :: rest) = low.map Prod.fst ∧
      ∀ a ∈ low, ∀ b ∈ high, entryLE a b) ∧
    (∃ P, (nextS g algo s).st.pq = P ++ (e :: rest).erase (minE e rest)) :=
  ⟨step_expand_yield g algo s e rest hph hpq,
    sampleList_length_le (e :: rest),
    sampleList_sorted (e :: rest),
    sampleList_lowest (e :: rest),
    step_expand_pq g algo s e rest hph hpq⟩

/-- Witness for C5 at the first step of the 5×5 uniform run. -/
theorem c5_frontier_sample_witness :
    (initM gEmpty5).phase = Phase.expand ∧
    (initM gEmpty5).st.pq = [((0 : ℚ), ((0 : Nat), (0 : Nat)))] ∧
    ((∀ v sg, (stepFull gEmpty5 "dijkstra" (initM gEmpty5)).2 = some (v, sg) →
      sg = Sig.prios (sampleList [((0 : ℚ), ((0 : Nat), (0 : Nat)))])) ∧
    (sampleList [((0 : ℚ), ((0 : Nat), (0 : Nat)))]).length ≤ 50 ∧
    List.Sorted (fun a b : ℚ => a ≤ b)
      (sampleList [((0 : ℚ), ((0 : Nat), (0 : Nat)))]) ∧
    (∃ low high,
      List.Perm [((0 : ℚ), ((0 : Nat), (0 : Nat)))] (low ++ high) ∧
      sampleList [((0 : ℚ), ((0 : Nat), (0 : Nat)))] = low.map Prod.fst ∧
      ∀ a ∈ low, ∀ b ∈ high, entryLE a b) ∧
    (∃ P, (nextS gEmpty5 "dijkstra" (initM gEmpty5)).st.pq =
      P ++ ([((0 : ℚ), ((0 : Nat), (0 : Nat)))]).erase
        (minE ((0 : ℚ), ((0 : Nat), (0 : Nat))) []))) :=
  ⟨rfl, rfl, c5_frontier_sample gEmpty5 "dijkstra" (initM gEmpty5)
    ((0 : ℚ), ((0 : Nat), (0 : Nat))) [] rfl rfl⟩

/-! ## Neighbor and reachability facts -/

theorem get_neighbors_mem_iff (g : GridM) (node n : Coord) :
    n ∈ get_neighbors g node ↔ ∃ x y : Int,
      ((x, y) = ((node.1 : Int), (node.2 : Int) + 1) ∨
       (x, y) = ((node.1 : Int) + 1, (node.2 : Int)) ∨
       (x, y) = ((node.1 : Int), (node.2 : Int) - 1) ∨
       (x, y) = ((node.1 : Int) - 1, (node.2 : Int))) ∧
      cellOpen g x y = true ∧ n = (x.toNat, y.toNat) := by
  rw [get_neighbors]
  simp only [List.mem_filterMap, List.mem_cons, List.mem_singleton,
    List.not_mem_nil, or_false]
  constructor
  · rintro ⟨⟨x, y⟩, hmem, hsome⟩
    by_cases hop : cellOpen g x y = true
    · rw [if_pos hop] at hsome
      exact ⟨x, y, by simpa using hmem, hop, (Option.some_inj.1 hsome).symm⟩
    · rw [if_neg hop] at hsome
      cases hsome
  · rintro ⟨x, y, hmem, hop, hn⟩
    refine ⟨(x, y), by simpa using hmem, ?_⟩
    rw [if_pos hop, hn]

theorem cellOpen_bounds {g : GridM} {x y : Int} (h : cellOpen g x y = true) :
    0 ≤ x ∧ x < (g.size : Int) ∧ 0 ≤ y ∧ y < (g.size : Int) ∧
      g.grid x.toNat y.toNat = 0 := by
  rw [cellOpen] at h
  simp only [Bool.and_eq_true, decide_eq_true_eq, beq_iff_eq] at h
  exact ⟨h.1.1.1.1, h.1.1.1.2, h.1.1.2, h.1.2, h.2⟩

theorem get_neighbors_inBounds {g : GridM} {node n : Coord}
    (h : n ∈ get_neighbors g node) : n.1 < g.size ∧ n.2 < g.size := by
  rw [get_neighbors_mem_iff] at h
  obtain ⟨x, y, _, hop, hn⟩ := h
  obtain ⟨hx0, hxs, hy0, hys, _⟩ := cellOpen_bounds hop
  rw [hn]
  constructor
  · have : (x.toNat : Int) = x := Int.toNat_of_nonneg hx0
    omega
  · have : (y.toNat : Int) = y := Int.toNat_of_nonneg hy0
    omega

theorem get_neighbors_open {g : GridM} {node n : Coord}
    (h : n ∈ get_neighbors g node) : g.grid n.1 n.2 = 0 := by
  rw [get_neighbors_mem_iff] at h
  obtain ⟨x, y, _, hop, hn⟩ := h
  obtain ⟨_, _, _, _, hg⟩ := cellOpen_bounds hop
  rw [hn]
  exact hg

theorem get_neighbors_ne {g : GridM} {node n : Coord}
    (h : n ∈ get_neighbors g node) : n ≠ node := by
  rw [get_neighbors_mem_iff] at h
  obtain ⟨x, y, hmem, hop, hn⟩ := h
  obtain ⟨hx0, _, hy0, _, _⟩ := cellOpen_bounds hop
  have hx : (x.toNat : Int) = x := Int.toNat_of_nonneg hx0
  have hy : (y.toNat : Int) = y := Int.toNat_of_nonneg hy0
  intro he
  rw [hn] at he
  have he1 : (x.toNat : Int) = (node.1 : Int) := by
    have := congrArg (fun c : Coord => (c.1 : Int)) he
    simpa using this
  have he2 : (y.toNat : Int) = (node.2 : Int) := by
    have := congrArg (fun c : Coord => (c.2 : Int)) he
    simpa using this
  rcases hmem with h1 | h1 | h1 | h1 <;>
    · obtain ⟨e1, e2⟩ := Prod.mk.injEq _ _ _ _ ▸ h1
      omega

theorem reachSet_mono_succ (g : GridM) (n : Nat) {c : Coord}
    (h : c ∈ reachSet g n) : c ∈ reachSet g (n + 1) := by
  rw [reachSet, List.mem_dedup, List.mem_append]
  exact Or.inl h

theorem reachSet_step (g : GridM) (n : Nat) {c w : Coord}
    (hc : c ∈ reachSet g n) (hw : w ∈ get_neighbors g c) :
    w ∈ reachSet g (n + 1) := by
  rw [reachSet, List.mem_dedup, List.mem_append]
  exact Or.inr (List.mem_flatMap.2 ⟨c, hc, hw⟩)

theorem reachable_step (g : GridM) {c w : Coord}
    (hc : reachable g c) (hw : w ∈ get_neighbors g c) : reachable g w := by
  obtain ⟨n, hn⟩ := hc
  exact ⟨n + 1, reachSet_step g n hn hw⟩

theorem reachable_start (g : GridM) : reachable g g.start :=
  ⟨0, by simp [reachSet]⟩

/-! ## The run-state invariant (both modes) -/

/-- Structural invariant of the run state, maintained by every machine step
in either mode. -/
structure EInv (g : GridM) (st : EState) : Prop where
  pqCost : ∀ p c, (p, c) ∈ st.pq → ∃ v, alookup c st.cost = some v ∧ (v : ℚ) ≤ p
  costReach : ∀ c v, alookup c st.cost = some v → reachable g c
  costStart : alookup g.start st.cost = some 0
  costNodup : (akeys st.cost).Nodup
  cameNodup : (akeys st.came_from).Nodup
  domEq : ∀ c, c ∈ akeys st.cost ↔ c ∈ akeys st.came_from
  parentNone : ∀ c, alookup c st.came_from = some none → c = g.start
  parentSome : ∀ c p, alookup c st.came_from = some (some p) →
    ∃ vc vp, alookup c st.cost = some vc ∧ alookup p st.cost = some vp ∧
      vp + 1 ≤ vc
  costBound : ∀ c v, alookup c st.cost = some v → v + 1 ≤ st.cost.length
  costInGrid : ∀ c, c ∈ akeys st.cost →
    c = g.start ∨ (c.1 < g.size ∧ c.2 < g.size)

theorem alookup_isSome_of_mem_akeys {α : Type} {k : Coord}
    {l : List (Coord × α)} (h : k ∈ akeys l) : ∃ v, alookup k l = some v := by
  have h2 := (alookup_isSome_iff k l).2 h
  rcases hv : alookup k l with _ | v
  · rw [hv] at h2
    cases h2
  · exact ⟨v, rfl⟩

theorem akeys_mem_of_alookup {α : Type} {k : Coord} {v : α}
    {l : List (Coord × α)} (h : alookup k l = some v) : k ∈ akeys l := by
  rw [← alookup_isSome_iff, h]
  rfl

theorem EInv_init (g : GridM) : EInv g (initE g) := by
  constructor
  · intro p c hmem
    simp only [initE, List.mem_singleton] at hmem
    obtain ⟨hp, hc⟩ := Prod.mk.injEq _ _ _ _ ▸ hmem
    refine ⟨0, ?_, ?_⟩
    · rw [hc]
      simp [initE, alookup]
    · rw [hp]
      simp
  · intro c v h
    simp only [initE, alookup] at h
    by_cases hc : c = g.start
    · exact hc ▸ reachable_start g
    · rw [if_neg hc] at h
      cases h
  · simp [initE, alookup]
  · simp [initE, akeys]
  · simp [initE, akeys]
  · intro c
    simp [initE, akeys]
  · intro c h
    simp only [initE, alookup] at h
    by_cases hc : c = g.start
    · exact hc
    · rw [if_neg hc] at h
      cases h
  · intro c p h
    simp only [initE, alookup] at h
    by_cases hc : c = g.start
    · rw [if_pos hc] at h
      cases h
    · rw [if_neg hc] at h
      cases h
  · intro c v h
    simp only [initE, alookup] at h
    by_cases hc : c = g.start
    · rw [if_pos hc] at h
      simp only [Option.some_inj] at h
      simp [initE, ← h]
    · rw [if_neg hc] at h
      cases h
  · intro c h
    simp only [initE, akeys, List.map_cons, List.map_nil,
      List.mem_singleton] at h
    exact Or.inl h

theorem prioOf_ge (g : GridM) (algo : String) (new_cost : Nat) (n : Coord) :
    (new_cost : ℚ) ≤ prioOf g algo new_cost n := by
  rw [prioOf]
  by_cases h : algo == "astar"
  · rw [if_pos h]
    have h1 : (0 : ℚ) ≤ (heuristic n g.goal : ℚ) * 1.5 := by
      have h2 : (0 : ℚ) ≤ (heuristic n g.goal : ℚ) := Nat.cast_nonneg _
      nlinarith
    linarith
  · rw [if_neg h]

/-- One firing or skipped relaxation of a neighbor `n` of the popped node
preserves the structural invariant. -/
theorem relaxOne_EInv (g : GridM) (algo : String) (current : Coord) (cc : Nat)
    (st : EState) (n : Coord) (hinv : EInv g st)
    (hcc : alookup current st.cost = some cc)
    (hn : n ∈ get_neighbors g current) :
    EInv g (relaxOne g algo current cc st n) := by
  rcases relaxOne_cases g algo current cc st n with ⟨hf, he⟩ | ⟨_, he⟩
  · rw [he]
    have hne : n ≠ g.start := by
      intro h0
      subst h0
      rcases hf with hf | ⟨old, hf, hlt⟩
      · rw [hinv.costStart] at hf
        cases hf
      · rw [hinv.costStart] at hf
        have := Option.some_inj.1 hf
        omega
    have hncur : n ≠ current := get_neighbors_ne hn
    have hreach : reachable g n :=
      reachable_step g (hinv.costReach current cc hcc) hn
    have hInG : n.1 < g.size ∧ n.2 < g.size := get_neighbors_inBounds hn
    have hccLen : cc + 1 ≤ st.cost.length := hinv.costBound current cc hcc
    constructor
    · -- pqCost
      intro p c hmem
      simp only [relaxUpd, List.mem_cons] at hmem
      rcases hmem with hmem | hmem
      · obtain ⟨hp, hc⟩ := Prod.mk.injEq _ _ _ _ ▸ hmem
        refine ⟨cc + 1, ?_, ?_⟩
        · rw [hc]
          exact alookup_aupdate_self n (cc + 1) st.cost
        · rw [hp]
          exact prioOf_ge g algo (cc + 1) n
      · obtain ⟨v, hv, hvp⟩ := hinv.pqCost p c hmem
        by_cases hcn : c = n
        · subst hcn
          refine ⟨cc + 1, alookup_aupdate_self c (cc + 1) st.cost, ?_⟩
          rcases hf with hf | ⟨old, hf, hlt⟩
          · rw [hv] at hf
            cases hf
          · rw [hv] at hf
            have hvo : v = old := Option.some_inj.1 hf
            have h9 : ((cc : ℚ)) + 1 ≤ (v : ℚ) := by
              have h8 : cc + 1 ≤ v := by omega
              exact_mod_cast h8
            push_cast
            linarith
        · refine ⟨v, ?_, hvp⟩
          simp only [relaxUpd]
          rw [alookup_aupdate_ne hcn (cc + 1) st.cost]
          exact hv
    · -- costReach
      intro c v hv
      simp only [relaxUpd] at hv
      by_cases hcn : c = n
      · exact hcn ▸ hreach
      · rw [alookup_aupdate_ne hcn (cc + 1) st.cost] at hv
        exact hinv.costReach c v hv
    · -- costStart
      simp only [relaxUpd]
      rw [alookup_aupdate_ne (Ne.symm hne) (cc + 1) st.cost]
      exact hinv.costStart
    · -- costNodup
      simp only [relaxUpd]
      exact akeys_aupdate_nodup n (cc + 1) hinv.costNodup
    · -- cameNodup
      simp only [relaxUpd]
      exact akeys_aupdate_nodup n (some current) hinv.cameNodup
    · -- domEq
      intro c
      simp only [relaxUpd]
      by_cases hmemC : n ∈ akeys st.cost
      · have hmemF : n ∈ akeys st.came_from := (hinv.domEq n).1 hmemC
        rw [akeys_aupdate_mem (cc + 1) hmemC,
          akeys_aupdate_mem (some current) hmemF]
        exact hinv.domEq c
      · have hmemF : n ∉ akeys st.came_from := fun h => hmemC ((hinv.domEq n).2 h)
        rw [akeys_aupdate_not_mem (cc + 1) hmemC,
          akeys_aupdate_not_mem (some current) hmemF]
        simp only [List.mem_append, List.mem_singleton]
        constructor
        · rintro (h | h)
          · exact Or.inl ((hinv.domEq c).1 h)
          · exact Or.inr h
        · rintro (h | h)
          · exact Or.inl ((hinv.domEq c).2 h)
          · exact Or.inr h
    · -- parentNone
      intro c h
      simp only [relaxUpd] at h
      by_cases hcn : c = n
      · subst hcn
        rw [alookup_aupdate_self c (some current) st.came_from] at h
        cases h
      · rw [alookup_aupdate_ne hcn (some current) st.came_from] at h
        exact hinv.parentNone c h
    · -- parentSome
      intro c p h
      simp only [relaxUpd] at h ⊢
      by_cases hcn : c = n
      · subst hcn
        rw [alookup_aupdate_self c (some current) st.came_from] at h
        have hpc : p = current := by
          have := Option.some_inj.1 h
          exact (Option.some_inj.1 this).symm
        subst hpc
        refine ⟨cc + 1, cc, alookup_aupdate_self c (cc + 1) st.cost, ?_, le_refl _⟩
        rw [alookup_aupdate_ne (fun hq => hncur hq.symm) (cc + 1) st.cost]
        exact hcc
      · rw [alookup_aupdate_ne hcn (some current) st.came_from] at h
        obtain ⟨vc, vp, hvc, hvp, hle⟩ := hinv.parentSome c p h
        by_cases hpn : p = n
        · subst hpn
          refine ⟨vc, cc + 1, ?_, alookup_aupdate_self p (cc + 1) st.cost, ?_⟩
          · rw [alookup_aupdate_ne hcn (cc + 1) st.cost]
            exact hvc
          · rcases hf with hf | ⟨old, hf, hlt⟩
            · rw [hvp] at hf
              cases hf
            · rw [hvp] at hf
              have : vp = old := Option.some_inj.1 hf
              omega
        · refine ⟨vc, vp, ?_, ?_, hle⟩
          · rw [alookup_aupdate_ne hcn (cc + 1) st.cost]
            exact hvc
          · rw [alookup_aupdate_ne hpn (cc + 1) st.cost]
            exact hvp
    · -- costBound
      intro c v hv
      simp only [relaxUpd] at hv ⊢
      by_cases hmemC : n ∈ akeys st.cost
      · rw [length_aupdate_mem (cc + 1) hmemC]
        by_cases hcn : c = n
        · subst hcn
          rw [alookup_aupdate_self c (cc + 1) st.cost] at hv
          have hvcc : v = cc + 1 := (Option.some_inj.1 hv).symm
          obtain ⟨old, hold⟩ := alookup_isSome_of_mem_akeys hmemC
          have hbo := hinv.costBound c old hold
          rcases hf with hf | ⟨old2, hf, hlt⟩
          · rw [hold] at hf
            cases hf
          · rw [hold] at hf
            have : old = old2 := Option.some_inj.1 hf
            omega
        · rw [alookup_aupdate_ne hcn (cc + 1) st.cost] at hv
          exact hinv.costBound c v hv
      · rw [length_aupdate_not_mem (cc + 1) hmemC]
        by_cases hcn : c = n
        · subst hcn
          rw [alookup_aupdate_self c (cc + 1) st.cost] at hv
          have hvcc : v = cc + 1 := (Option.some_inj.1 hv).symm
          omega
        · rw [alookup_aupdate_ne hcn (cc + 1) st.cost] at hv
          have := hinv.costBound c v hv
          omega
    · -- costInGrid
      intro c hmem
      simp only [relaxUpd] at hmem
      by_cases hmemC : n ∈ akeys st.cost
      · rw [akeys_aupdate_mem (cc + 1) hmemC] at hmem
        exact hinv.costInGrid c hmem
      · rw [akeys_aupdate_not_mem (cc + 1) hmemC] at hmem
        rcases List.mem_append.1 hmem with h | h
        · exact hinv.costInGrid c h
        · have : c = n := List.mem_singleton.1 h
          exact Or.inr (this ▸ hInG)
  · rw [he]
    exact hinv

theorem relaxOne_cost_other (g : GridM) (algo : String) (current : Coord)
    (cc : Nat) (st : EState) {n m : Coord} (hnm : m ≠ n) :
    alookup m (relaxOne g algo current cc st n).cost = alookup m st.cost := by
  rcases relaxOne_cases g algo current cc st n with ⟨_, he⟩ | ⟨_, he⟩
  · rw [he]
    simp only [relaxUpd]
    exact alookup_aupdate_ne hnm (cc + 1) st.cost
  · rw [he]

theorem foldRelax_EInv (g : GridM) (algo : String) (current : Coord) (cc : Nat)
    (ns : List Coord) (st : EState) (hinv : EInv g st)
    (hcc : alookup current st.cost = some cc)
    (hns : ∀ n ∈ ns, n ∈ get_neighbors g current) :
    EInv g (ns.foldl (relaxOne g algo current cc) st) ∧
      alookup current ((ns.foldl (relaxOne g algo current cc) st)).cost =
        some cc := by
  induction ns generalizing st with
  | nil => exact ⟨hinv, hcc⟩
  | cons n rest ih =>
    have hn : n ∈ get_neighbors g current := hns n (List.mem_cons_self _ _)
    have h1 : EInv g (relaxOne g algo current cc st n) :=
      relaxOne_EInv g algo current cc st n hinv hcc hn
    have h2 : alookup current (relaxOne g algo current cc st n).cost = some cc := by
      rw [relaxOne_cost_other g algo current cc st
        (fun h => (get_neighbors_ne hn) h.symm)]
      exact hcc
    exact ih (relaxOne g algo current cc st n) h1 h2
      (fun m hm => hns m (List.mem_cons_of_mem _ hm))

theorem markVisit_EInv (g : GridM) (c : Coord) (st : EState)
    (hinv : EInv g st) : EInv g (markVisit g c st) := by
  rw [markVisit]
  by_cases h : c = g.start
  · rw [if_pos h]
    exact hinv
  · rw [if_neg h]
    exact ⟨hinv.pqCost, hinv.costReach, hinv.costStart, hinv.costNodup,
      hinv.cameNodup, hinv.domEq, hinv.parentNone, hinv.parentSome,
      hinv.costBound, hinv.costInGrid⟩

theorem erase_EInv (g : GridM) (st : EState) (a : Entry) (hinv : EInv g st) :
    EInv g { st with pq := st.pq.erase a } := by
  refine ⟨?_, hinv.costReach, hinv.costStart, hinv.costNodup,
    hinv.cameNodup, hinv.domEq, hinv.parentNone, hinv.parentSome,
    hinv.costBound, hinv.costInGrid⟩
  intro p c hmem
  exact hinv.pqCost p c ((st.pq.erase_sublist a).mem hmem)

theorem visual_EInv (g : GridM) (st : EState) (v : Nat → Nat → Nat)
    (hinv : EInv g st) : EInv g { st with visual := v } :=
  ⟨hinv.pqCost, hinv.costReach, hinv.costStart, hinv.costNodup,
    hinv.cameNodup, hinv.domEq, hinv.parentNone, hinv.parentSome,
    hinv.costBound, hinv.costInGrid⟩

/-- Every machine step preserves the structural invariant, in either mode. -/
theorem step_EInv (g : GridM) (algo : String) (s : MState)
    (hinv : EInv g s.st) : EInv g (nextS g algo s).st := by
  rcases hph : s.phase with _ | c | _ | _ | _
  · rcases step_expand_cases g algo s hph with ⟨_, he⟩ | ⟨e, rest, hpq, hcase⟩
    · rw [he, enterRecon_st]
      exact hinv
    · have hstep : EInv g { s.st with pq := (e :: rest).erase (minE e rest) } := by
        have h1 := erase_EInv g s.st (minE e rest) hinv
        rw [hpq] at h1
        exact h1
      rcases hcase with ⟨_, he⟩ | ⟨_, cc, hcc, he⟩ | ⟨_, _, _, he⟩ | ⟨_, _, _, he⟩
      · rw [he, enterRecon_st]
        exact hstep
      · rw [he]
        have h2 : EInv g (markVisit g (minE e rest).2
            { s.st with pq := (e :: rest).erase (minE e rest) }) :=
          markVisit_EInv g _ _ hstep
        have h3 : alookup (minE e rest).2 (markVisit g (minE e rest).2
            { s.st with pq := (e :: rest).erase (minE e rest) }).cost = some cc := by
          rw [markVisit_cost]
          exact hcc
        exact (foldRelax_EInv g algo (minE e rest).2 cc
          (get_neighbors g (minE e rest).2) _ h2 h3 (fun n hn => hn)).1
      · rw [he]
        exact markVisit_EInv g _ _ hstep
      · rw [he]
        exact markVisit_EInv g _ _ hstep
  · rcases step_recon_cases g algo s c hph with ⟨_, he⟩ | ⟨_, p, _, he⟩ | ⟨_, _, he⟩ <;>
      · rw [he]
        exact visual_EInv g s.st _ hinv
  · rw [step_preDone g algo s hph]
    exact hinv
  · rw [step_done g algo s hph]
    exact hinv
  · rw [step_errSt g algo s hph]
    exact hinv

/-- The structural invariant holds at every point of every run. -/
theorem iterM_EInv (g : GridM) (algo : String) (n : Nat) :
    EInv g (iterM g algo n).st := by
  induction n with
  | zero => exact EInv_init g
  | succ n ih => exact step_EInv g algo (iterM g algo n) ih

/-! ## Machine invariant: no key errors -/

/-- Phase-sensitive machine invariant: the structural invariant holds, the
reconstruction cursor always has a recorded cost, and the error state is
never reached. -/
def MInv (g : GridM) (s : MState) : Prop :=
  EInv g s.st ∧
  (∀ c, s.phase = .reconAt c → c ∈ akeys s.st.cost) ∧
  s.phase ≠ .errSt

theorem MInv_mk (g : GridM) (s : MState) (hE : EInv g s.st)
    (hrec : ∀ c, s.phase = .reconAt c → c ∈ akeys s.st.cost)
    (herr : s.phase ≠ .errSt) : MInv g s :=
  ⟨hE, hrec, herr⟩

theorem enterRecon_MInv (g : GridM) (st : EState) (hinv : EInv g st) :
    MInv g (enterRecon g st) := by
  rw [enterRecon]
  by_cases h : (alookup g.goal st.came_from).isSome = true
  · rw [if_pos h]
    refine MInv_mk g _ hinv ?_ (by simp)
    intro c hc
    have hcg : g.goal = c := Phase.reconAt.inj hc
    rw [← hcg]
    exact (hinv.domEq g.goal).2 ((alookup_isSome_iff g.goal st.came_from).1 h)
  · rw [if_neg h]
    exact MInv_mk g _ hinv (by intro c hc; exact absurd hc (by simp)) (by simp)

theorem step_MInv (g : GridM) (algo : String) (s : MState)
    (hinv : MInv g s) : MInv g (nextS g algo s) := by
  obtain ⟨hE, hrec, hne⟩ := hinv
  rcases hph : s.phase with _ | c | _ | _ | _
  · rcases step_expand_cases g algo s hph with ⟨_, he⟩ | ⟨e, rest, hpq, hcase⟩
    · rw [he]
      exact enterRecon_MInv g s.st hE
    have hstep : EInv g { s.st with pq := (e :: rest).erase (minE e rest) } := by
      have h1 := erase_EInv g s.st (minE e rest) hE
      rw [hpq] at h1
      exact h1
    have hpopcost : ∃ v, alookup (minE e rest).2 s.st.cost = some v := by
      have hmem : minE e rest ∈ s.st.pq := by
        rw [hpq]
        exact minE_mem e rest
      obtain ⟨v, hv, _⟩ := hE.pqCost (minE e rest).1 (minE e rest).2
        (by simpa using hmem)
      exact ⟨v, hv⟩
    rcases hcase with ⟨_, he⟩ | ⟨_, cc, hcc, he⟩ | ⟨_, hc, _, _⟩ | ⟨_, hc, _, _⟩
    · rw [he]
      exact enterRecon_MInv g _ hstep
    · rw [he]
      refine MInv_mk g _ ?_ (by intro c2 hc2; exact absurd hc2 (by simp))
        (by simp)
      have h2 := markVisit_EInv g (minE e rest).2 _ hstep
      have h3 : alookup (minE e rest).2 (markVisit g (minE e rest).2
          { s.st with pq := (e :: rest).erase (minE e rest) }).cost = some cc := by
        rw [markVisit_cost]
        exact hcc
      exact (foldRelax_EInv g algo (minE e rest).2 cc
        (get_neighbors g (minE e rest).2) _ h2 h3 (fun n hn => hn)).1
    · obtain ⟨v, hv⟩ := hpopcost
      rw [hv] at hc
      cases hc
    · obtain ⟨v, hv⟩ := hpopcost
      rw [hv] at hc
      cases hc
  · have hcmem : c ∈ akeys s.st.cost := hrec c hph
    rcases step_recon_cases g algo s c hph with ⟨_, he⟩ | ⟨_, p, hp, he⟩ |
      ⟨hcs, hor, _⟩
    · rw [he]
      exact MInv_mk g _ (visual_EInv g s.st _ hE)
        (by intro c2 hc2; exact absurd hc2 (by simp)) (by simp)
    · rw [he]
      refine MInv_mk g _ (visual_EInv g s.st _ hE) ?_ (by simp)
      intro c2 hc2
      have hcp : p = c2 := Phase.reconAt.inj hc2
      rw [← hcp]
      obtain ⟨vc, vp, _, hvp, _⟩ := hE.parentSome c p hp
      exact akeys_mem_of_alookup hvp
    · exfalso
      rcases hor with hsn | hnone
      · exact hcs (hE.parentNone c hsn)
      · have h2 := (hE.domEq c).1 hcmem
        rw [alookup_eq_none_iff] at hnone
        exact hnone h2
  · rw [step_preDone g algo s hph]
    exact MInv_mk g _ hE (by intro c2 hc2; exact absurd hc2 (by simp)) (by simp)
  · rw [step_done g algo s hph]
    exact MInv_mk g _ hE (by intro c2 hc2; exact absurd hc2 (by simp)) (by simp)
  · exact absurd hph hne

theorem iterM_MInv (g : GridM) (algo : String) (n : Nat) :
    MInv g (iterM g algo n) := by
  induction n with
  | zero =>
    exact MInv_mk g _ (EInv_init g)
      (by intro c hc; exact absurd hc (by simp [iterM, initM]))
      (by simp [iterM, initM])
  | succ n ih => exact step_MInv g algo (iterM g algo n) ih

/-- No run ever reaches the key-error state. -/
theorem iterM_no_err (g : GridM) (algo : String) (n : Nat) :
    (iterM g algo n).phase ≠ Phase.errSt :=
  (iterM_MInv g algo n).2.2

/-! ## Termination: a potential that strictly decreases during expansion -/

/-- Iterate the machine from an arbitrary state. -/
def stepN (g : GridM) (algo : String) : Nat → MState → MState
  | 0, s => s
  | n + 1, s => stepN g algo n (nextS g algo s)

theorem stepN_iterM (g : GridM) (algo : String) (n i : Nat) :
    stepN g algo n (iterM g algo i) = iterM g algo (i + n) := by
  induction n generalizing i with
  | zero => rfl
  | succ n ih =>
    rw [stepN]
    have h1 : nextS g algo (iterM g algo i) = iterM g algo (i + 1) := rfl
    rw [h1, ih (i + 1)]
    congr 1
    omega

/-- The number of distinct recorded coordinates is bounded by the number of
board cells plus the start cell. -/
theorem cost_len_le (g : GridM) (st : EState) (hinv : EInv g st) :
    st.cost.length ≤ g.size * g.size + 1 := by
  have hlen : (akeys st.cost).length = st.cost.length := by
    simp [akeys]
  have hnd := hinv.costNodup
  have hsub : (akeys st.cost).toFinset ⊆
      insert g.start ((Finset.range g.size) ×ˢ (Finset.range g.size)) := by
    intro c hc
    rw [List.mem_toFinset] at hc
    rcases hinv.costInGrid c hc with h | ⟨h1, h2⟩
    · rw [h]
      exact Finset.mem_insert_self _ _
    · refine Finset.mem_insert_of_mem ?_
      rw [Finset.mem_product]
      exact ⟨Finset.mem_range.2 h1, Finset.mem_range.2 h2⟩
  calc st.cost.length = (akeys st.cost).length := hlen.symm
    _ = (akeys st.cost).toFinset.card := (List.toFinset_card_of_nodup hnd).symm
    _ ≤ (insert g.start ((Finset.range g.size) ×ˢ (Finset.range g.size))).card :=
        Finset.card_le_card hsub
    _ ≤ ((Finset.range g.size) ×ˢ (Finset.range g.size)).card + 1 :=
        Finset.card_insert_le _ _
    _ = g.size * g.size + 1 := by
        rw [Finset.card_product, Finset.card_range]

/-- Termination potential: frontier size plus total recorded cost plus a
large weight for each coordinate not yet recorded. -/
def potential (g : GridM) (st : EState) : Nat :=
  st.pq.length + costSum st.cost +
    (g.size * g.size + 3) * ((g.size * g.size + 1) - st.cost.length)

theorem relaxOne_potential (g : GridM) (algo : String) (current : Coord)
    (cc : Nat) (st : EState) (n : Coord) (hinv : EInv g st)
    (hcc : alookup current st.cost = some cc)
    (hn : n ∈ get_neighbors g current) :
    potential g (relaxOne g algo current cc st n) ≤ potential g st := by
  rcases relaxOne_cases g algo current cc st n with ⟨hf, he⟩ | ⟨_, he⟩
  · have hccLen : cc + 1 ≤ st.cost.length := hinv.costBound current cc hcc
    have hstInv : EInv g (relaxOne g algo current cc st n) :=
      relaxOne_EInv g algo current cc st n hinv hcc hn
    rw [he] at hstInv ⊢
    rcases hf with hfn | ⟨old, hfo, hlt⟩
    · -- new key
      have hnm : n ∉ akeys st.cost := (alookup_eq_none_iff n st.cost).1 hfn
      have hlen : (aupdate n (cc + 1) st.cost).length = st.cost.length + 1 :=
        length_aupdate_not_mem (cc + 1) hnm
      have hsum : costSum (aupdate n (cc + 1) st.cost) = costSum st.cost + (cc + 1) :=
        costSum_aupdate_none (cc + 1) hfn
      have hlenA : st.cost.length + 1 ≤ g.size * g.size + 1 := by
        have := cost_len_le g _ hstInv
        simp only [relaxUpd] at this
        rw [hlen] at this
        exact this
      simp only [potential, relaxUpd, List.length_cons, hlen, hsum]
      have hsplit : (g.size * g.size + 3) * ((g.size * g.size + 1) - st.cost.length) =
          (g.size * g.size + 3) * ((g.size * g.size + 1) - (st.cost.length + 1)) +
          (g.size * g.size + 3) := by
        have h9 : (g.size * g.size + 1) - st.cost.length =
            ((g.size * g.size + 1) - (st.cost.length + 1)) + 1 := by omega
        rw [h9, Nat.mul_add, Nat.mul_one]
      rw [hsplit]
      omega
    · -- existing key, strictly smaller value
      have hnm : n ∈ akeys st.cost := akeys_mem_of_alookup hfo
      have hlen : (aupdate n (cc + 1) st.cost).length = st.cost.length :=
        length_aupdate_mem (cc + 1) hnm
      have hsum : costSum (aupdate n (cc + 1) st.cost) + old =
          costSum st.cost + (cc + 1) :=
        costSum_aupdate_some (cc + 1) hinv.costNodup hfo
      simp only [potential, relaxUpd, List.length_cons, hlen]
      omega
  · rw [he]

theorem foldRelax_potential (g : GridM) (algo : String) (current : Coord)
    (cc : Nat) (ns : List Coord) (st : EState) (hinv : EInv g st)
    (hcc : alookup current st.cost = some cc)
    (hns : ∀ n ∈ ns, n ∈ get_neighbors g current) :
    potential g ((ns.foldl (relaxOne g algo current cc) st)) ≤ potential g st := by
  induction ns generalizing st with
  | nil => exact le_refl _
  | cons n rest ih =>
    have hn : n ∈ get_neighbors g current := hns n (List.mem_cons_self _ _)
    have h1 : EInv g (relaxOne g algo current cc st n) :=
      relaxOne_EInv g algo current cc st n hinv hcc hn
    have h2 : alookup current (relaxOne g algo current cc st n).cost = some cc := by
      rw [relaxOne_cost_other g algo current cc st
        (fun h => (get_neighbors_ne hn) h.symm)]
      exact hcc
    calc potential g ((n :: rest).foldl (relaxOne g algo current cc) st)
        = potential g (rest.foldl (relaxOne g algo current cc)
            (relaxOne g algo current cc st n)) := rfl
      _ ≤ potential g (relaxOne g algo current cc st n) :=
          ih (relaxOne g algo current cc st n) h1 h2
            (fun m hm => hns m (List.mem_cons_of_mem _ hm))
      _ ≤ potential g st := relaxOne_potential g algo current cc st n hinv hcc hn

theorem markVisit_potential (g : GridM) (c : Coord) (st : EState) :
    potential g (markVisit g c st) = potential g st := by
  rw [potential, potential, markVisit_cost, markVisit_pq]

theorem enterRecon_phase (g : GridM) (st : EState) :
    (enterRecon g st).phase ≠ Phase.expand := by
  rw [enterRecon]
  by_cases h : (alookup g.goal st.came_from).isSome = true
  · rw [if_pos h]
    simp
  · rw [if_neg h]
    simp

/-- While the machine stays in the expansion phase, the potential strictly
decreases at every step. -/
theorem step_potential (g : GridM) (algo : String) (s : MState)
    (hM : MInv g s) (hph : s.phase = .expand)
    (hph2 : (nextS g algo s).phase = .expand) :
    potential g (nextS g algo s).st < potential g s.st := by
  obtain ⟨hE, _, _⟩ := hM
  rcases step_expand_cases g algo s hph with ⟨_, he⟩ | ⟨e, rest, hpq, hcase⟩
  · rw [he] at hph2
    exact absurd hph2 (enterRecon_phase g s.st)
  have hmem : minE e rest ∈ s.st.pq := by
    rw [hpq]
    exact minE_mem e rest
  have herase : ((e :: rest).erase (minE e rest)).length + 1 = s.st.pq.length := by
    rw [hpq]
    rw [List.length_erase_of_mem (by rw [← hpq]; exact hmem)]
    simp
  rcases hcase with ⟨_, he⟩ | ⟨_, cc, hcc, he⟩ | ⟨_, _, _, he⟩ | ⟨_, _, _, he⟩
  · rw [he] at hph2
    exact absurd hph2 (enterRecon_phase g _)
  · rw [he]
    have hstep : EInv g { s.st with pq := (e :: rest).erase (minE e rest) } := by
      have h1 := erase_EInv g s.st (minE e rest) hE
      rw [hpq] at h1
      exact h1
    have h2 : EInv g (markVisit g (minE e rest).2
        { s.st with pq := (e :: rest).erase (minE e rest) }) :=
      markVisit_EInv g _ _ hstep
    have h3 : alookup (minE e rest).2 (markVisit g (minE e rest).2
        { s.st with pq := (e :: rest).erase (minE e rest) }).cost = some cc := by
      rw [markVisit_cost]
      exact hcc
    have h4 := foldRelax_potential g algo (minE e rest).2 cc
      (get_neighbors g (minE e rest).2)
      (markVisit g (minE e rest).2
        { s.st with pq := (e :: rest).erase (minE e rest) })
      h2 h3 (fun n hn => hn)
    have h5 : potential g (markVisit g (minE e rest).2
        { s.st with pq := (e :: rest).erase (minE e rest) }) + 1 =
        potential g s.st := by
      rw [markVisit_potential]
      show ((e :: rest).erase (minE e rest)).length + costSum s.st.cost +
        (g.size * g.size + 3) * ((g.size * g.size + 1) - s.st.cost.length) + 1 =
        s.st.pq.length + costSum s.st.cost +
        (g.size * g.size + 3) * ((g.size * g.size + 1) - s.st.cost.length)
      omega
    show potential g ((get_neighbors g (minE e rest).2).foldl
      (relaxOne g algo (minE e rest).2 cc)
      (markVisit g (minE e rest).2
        { s.st with pq := (e :: rest).erase (minE e rest) })) < potential g s.st
    omega
  · rw [he]
    have h5 : potential g (markVisit g (minE e rest).2
        { s.st with pq := (e :: rest).erase (minE e rest) }) + 1 =
        potential g s.st := by
      rw [markVisit_potential]
      show ((e :: rest).erase (minE e rest)).length + costSum s.st.cost +
        (g.size * g.size + 3) * ((g.size * g.size + 1) - s.st.cost.length) + 1 =
        s.st.pq.length + costSum s.st.cost +
        (g.size * g.size + 3) * ((g.size * g.size + 1) - s.st.cost.length)
      omega
    show potential g (markVisit g (minE e rest).2
      { s.st with pq := (e :: rest).erase (minE e rest) }) < potential g s.st
    omega
  · rw [he] at hph2
    exact absurd hph2 (by simp)

/-- From any expansion state, within `potential + 1` steps the machine
leaves the expansion phase. -/
theorem expand_exit (g : GridM) (algo : String) : ∀ (F : Nat) (s : MState),
    MInv g s → s.phase = .expand → potential g s.st ≤ F →
    ∃ m, m ≤ F + 1 ∧ (stepN g algo m s).phase ≠ .expand := by
  intro F
  induction F with
  | zero =>
    intro s hM hph hpot
    by_cases h2 : (nextS g algo s).phase = .expand
    · exfalso
      have := step_potential g algo s hM hph h2
      omega
    · exact ⟨1, le_refl _, h2⟩
  | succ F ih =>
    intro s hM hph hpot
    by_cases h2 : (nextS g algo s).phase = .expand
    · have hlt := step_potential g algo s hM hph h2
      have hle : potential g (nextS g algo s).st ≤ F := by omega
      obtain ⟨m, hm, hphm⟩ := ih (nextS g algo s) (step_MInv g algo s hM) h2 hle
      exact ⟨m + 1, by omega, hphm⟩
    · exact ⟨1, by omega, h2⟩

/-- From any reconstruction state whose cursor has recorded cost `k`, the
machine reaches DONE within `k + 2` steps. -/
theorem recon_exit (g : GridM) (algo : String) : ∀ (K : Nat) (s : MState)
    (c : Coord) (k : Nat), MInv g s → s.phase = .reconAt c →
    alookup c s.st.cost = some k → k ≤ K →
    ∃ m, m ≤ K + 2 ∧ (stepN g algo m s).phase = .done := by
  intro K
  induction K with
  | zero =>
    intro s c k hM hph hk hkK
    rcases step_recon_cases g algo s c hph with ⟨hcs, he⟩ | ⟨hcs, p, hp, he⟩ |
      ⟨hcs, hor, _⟩
    · refine ⟨2, le_refl _, ?_⟩
      show (nextS g algo (nextS g algo s)).phase = .done
      rw [he, step_preDone g algo _ rfl]
    · exfalso
      obtain ⟨vc, vp, hvc, _, hle⟩ := hM.1.parentSome c p hp
      rw [hk] at hvc
      have : k = vc := Option.some_inj.1 hvc
      omega
    · exfalso
      rcases hor with hsn | hnone
      · exact hcs (hM.1.parentNone c hsn)
      · have h2 := (hM.1.domEq c).1 (hM.2.1 c hph)
        rw [alookup_eq_none_iff] at hnone
        exact hnone h2
  | succ K ih =>
    intro s c k hM hph hk hkK
    rcases step_recon_cases g algo s c hph with ⟨hcs, he⟩ | ⟨hcs, p, hp, he⟩ |
      ⟨hcs, hor, _⟩
    · refine ⟨2, by omega, ?_⟩
      show (nextS g algo (nextS g algo s)).phase = .done
      rw [he, step_preDone g algo _ rfl]
    · obtain ⟨vc, vp, hvc, hvp, hle⟩ := hM.1.parentSome c p hp
      rw [hk] at hvc
      have hkvc : k = vc := Option.some_inj.1 hvc
      have hvpK : vp ≤ K := by omega
      have hM2 : MInv g (nextS g algo s) := step_MInv g algo s hM
      have hph2 : (nextS g algo s).phase = .reconAt p := by
        rw [he]
      have hvp2 : alookup p (nextS g algo s).st.cost = some vp := by
        rw [he]
        exact hvp
      obtain ⟨m, hm, hdone⟩ := ih (nextS g algo s) p vp hM2 hph2 hvp2 hvpK
      exact ⟨m + 1, by omega, hdone⟩
    · exfalso
      rcases hor with hsn | hnone
      · exact hcs (hM.1.parentNone c hsn)
      · have h2 := (hM.1.domEq c).1 (hM.2.1 c hph)
        rw [alookup_eq_none_iff] at hnone
        exact hnone h2

/-- Every run, in either mode, reaches the terminal DONE state after
finitely many machine steps. -/
theorem iterM_terminates (g : GridM) (algo : String) :
    ∃ n, (iterM g algo n).phase = Phase.done := by
  obtain ⟨m1, _, hph1⟩ := expand_exit g algo (potential g (initE g)) (initM g)
    (iterM_MInv g algo 0) rfl (le_refl _)
  have hiter : stepN g algo m1 (initM g) = iterM g algo m1 := by
    have h0 := stepN_iterM g algo m1 0
    simpa using h0
  rw [hiter] at hph1
  have hM1 : MInv g (iterM g algo m1) := iterM_MInv g algo m1
  rcases hph : (iterM g algo m1).phase with _ | c | _ | _ | _
  · exact absurd hph hph1
  · have hc := hM1.2.1 c hph
    obtain ⟨k, hk⟩ := alookup_isSome_of_mem_akeys hc
    obtain ⟨m2, _, hd⟩ := recon_exit g algo k (iterM g algo m1) c k hM1 hph hk
      (le_refl k)
    refine ⟨m1 + m2, ?_⟩
    rw [← stepN_iterM g algo m2 m1]
    exact hd
  · refine ⟨m1 + 1, ?_⟩
    rw [← stepN_iterM g algo 1 m1]
    show (nextS g algo (iterM g algo m1)).phase = .done
    rw [step_preDone g algo _ hph]
  · exact ⟨m1, hph⟩
  · exact absurd hph hM1.2.2

/-! ## Claim C7 -/

/-- C7: for every finite grid and either mode, the step sequence reaches the
terminal DONE marker after finitely many advances: the expansion loop stops
(goal popped or frontier exhausted, forced by the strictly decreasing
potential), reconstruction follows the strictly cost-decreasing parent
chain, and the machine lands in the `done` phase. -/
theorem c7_run_reaches_done (g : GridM) (algo : String) :
    ∃ n, (iterM g algo n).phase = Phase.done :=
  iterM_terminates g algo

/-! ## Claim C10 -/

/-- C10: no run ever reads a missing dictionary key: the machine never
enters the key-error state, every coordinate about to be popped from a
nonempty frontier already has a `cost_so_far` entry, and the
parent-chain walk of reconstruction reaches the terminal DONE state after
finitely many steps (the parent links strictly decrease recorded cost, so
the chain is acyclic and ends at the start). -/
theorem c10_no_missing_key_reads (g : GridM) (algo : String) :
    (∀ n, (iterM g algo n).phase ≠ Phase.errSt) ∧
    (∀ n (e : Entry) (rest : List Entry), (iterM g algo n).st.pq = e :: rest →
      ∃ v, alookup (minE e rest).2 (iterM g algo n).st.cost = some v) ∧
    (∃ n, (iterM g algo n).phase = Phase.done) := by
  refine ⟨iterM_no_err g algo, ?_, iterM_terminates g algo⟩
  intro n e rest hpq
  have hE := (iterM_MInv g algo n).1
  have hmem : minE e rest ∈ (iterM g algo n).st.pq := by
    rw [hpq]
    exact minE_mem e rest
  obtain ⟨v, hv, _⟩ := hE.pqCost (minE e rest).1 (minE e rest).2
    (by simpa using hmem)
  exact ⟨v, hv⟩

/-- Witness for C10: on the concrete 5×5 uniform run, the first pop (of the
start cell) has a recorded cost. -/
theorem c10_no_missing_key_reads_witness :
    (iterM gEmpty5 "dijkstra" 0).st.pq =
      ((0 : ℚ), ((0 : Nat), (0 : Nat))) :: [] ∧
    (∃ v, alookup (minE ((0 : ℚ), ((0 : Nat), (0 : Nat))) []).2
      (iterM gEmpty5 "dijkstra" 0).st.cost = some v) :=
  ⟨rfl, (c10_no_missing_key_reads gEmpty5 "dijkstra").2.1 0
    ((0 : ℚ), ((0 : Nat), (0 : Nat))) [] rfl⟩

/-! ## Claim C8 -/

theorem reachSet_mono (g : GridM) {n m : Nat} (hnm : n ≤ m) {c : Coord}
    (h : c ∈ reachSet g n) : c ∈ reachSet g m := by
  induction m with
  | zero =>
    have h0 : n = 0 := Nat.le_zero.1 hnm
    rw [← h0]
    exact h
  | succ m ih =>
    rcases Nat.lt_or_ge n (m + 1) with h2 | h2
    · exact reachSet_mono_succ g m (ih (Nat.lt_succ_iff.1 h2))
    · have he : n = m + 1 := le_antisymm hnm h2
      rw [← he]
      exact h

/-- If one BFS round adds nothing new and the goal is still missing, the
goal is unreachable. -/
theorem unreachable_of_fixpoint (g : GridM) (k : Nat)
    (hfix : ∀ c ∈ reachSet g (k + 1), c ∈ reachSet g k)
    (hgoal : g.goal ∉ reachSet g k) : ¬ reachable g g.goal := by
  have habsorb : ∀ m, ∀ c ∈ reachSet g (k + m), c ∈ reachSet g k := by
    intro m
    induction m with
    | zero => exact fun c hc => hc
    | succ m ih =>
      intro c hc
      have he : k + (m + 1) = (k + m) + 1 := by omega
      rw [he, reachSet, List.mem_dedup, List.mem_append] at hc
      rcases hc with hc | hc
      · exact ih c hc
      · obtain ⟨u, hu, hnb⟩ := List.mem_flatMap.1 hc
        have hu2 : u ∈ reachSet g k := ih u hu
        exact hfix c (reachSet_step g k hu2 hnb)
  rintro ⟨n, hn⟩
  rcases Nat.le_total n k with h | h
  · exact hgoal (reachSet_mono g h hn)
  · obtain ⟨m, hm⟩ := Nat.exists_eq_add_of_le h
    rw [hm] at hn
    exact hgoal (habsorb m g.goal hn)

/-- With an unreachable goal the machine never enters a reconstruction
phase: entering one requires a `came_from` entry for the goal, which would
make the goal reachable. -/
theorem no_recon_of_unreachable (g : GridM) (algo : String)
    (hunreach : ¬ reachable g g.goal) :
    ∀ n c, (iterM g algo n).phase ≠ Phase.reconAt c := by
  intro n
  induction n with
  | zero =>
    intro c hph
    exact absurd hph (by simp [iterM, initM])
  | succ n ih =>
    intro c hph
    rcases hphn : (iterM g algo n).phase with _ | c2 | _ | _ | _
    · rcases step_expand_cases g algo (iterM g algo n) hphn with ⟨_, he⟩ |
        ⟨e, rest, _, hcase⟩
      · have hgmem : (alookup g.goal (iterM g algo n).st.came_from).isSome = true := by
          have h2 : iterM g algo (n + 1) = enterRecon g (iterM g algo n).st := he
          rw [h2, enterRecon] at hph
          by_cases h3 : (alookup g.goal (iterM g algo n).st.came_from).isSome = true
          · exact h3
          · rw [if_neg h3] at hph
            cases hph
        have hE := (iterM_MInv g algo n).1
        have h4 : g.goal ∈ akeys (iterM g algo n).st.cost :=
          (hE.domEq g.goal).2 ((alookup_isSome_iff _ _).1 hgmem)
        obtain ⟨v, hv⟩ := alookup_isSome_of_mem_akeys h4
        exact hunreach (hE.costReach g.goal v hv)
      · rcases hcase with ⟨_, he⟩ | ⟨_, cc, _, he⟩ | ⟨_, _, _, he⟩ | ⟨_, _, _, he⟩
        · have hgmem : (alookup g.goal (iterM g algo n).st.came_from).isSome = true := by
            have h2 : iterM g algo (n + 1) = enterRecon g
                { (iterM g algo n).st with
                  pq := (e :: rest).erase (minE e rest) } := he
            rw [h2, enterRecon] at hph
            by_cases h3 : (alookup g.goal { (iterM g algo n).st with
                pq := (e :: rest).erase (minE e rest) }.came_from).isSome = true
            · exact h3
            · rw [if_neg h3] at hph
              cases hph
          have hE := (iterM_MInv g algo n).1
          have h4 : g.goal ∈ akeys (iterM g algo n).st.cost :=
            (hE.domEq g.goal).2 ((alookup_isSome_iff _ _).1 hgmem)
          obtain ⟨v, hv⟩ := alookup_isSome_of_mem_akeys h4
          exact hunreach (hE.costReach g.goal v hv)
        · have h2 : iterM g algo (n + 1) = _ := he
          rw [h2] at hph
          cases hph
        · have h2 : iterM g algo (n + 1) = _ := he
          rw [h2] at hph
          cases hph
        · have h2 : iterM g algo (n + 1) = _ := he
          rw [h2] at hph
          cases hph
    · exact absurd hphn (ih c2)
    · rw [show iterM g algo (n + 1) = nextS g algo (iterM g algo n) from rfl,
        step_preDone g algo _ hphn] at hph
      cases hph
    · rw [show iterM g algo (n + 1) = nextS g algo (iterM g algo n) from rfl,
        step_done g algo _ hphn] at hph
      cases hph
    · exact (iterM_MInv g algo n).2.2 hphn

theorem updV_cases (v : Nat → Nat → Nat) (c : Coord) (k : Nat) (x y : Nat) :
    updV v c k x y = v x y ∨ updV v c k x y = k := by
  rw [updV]
  by_cases h : x = c.1 ∧ y = c.2
  · rw [if_pos h]
    exact Or.inr rfl
  · rw [if_neg h]
    exact Or.inl rfl

theorem relaxOne_visual (g : GridM) (algo : String) (current : Coord)
    (cc : Nat) (st : EState) (n : Coord) (x y : Nat) :
    (relaxOne g algo current cc st n).visual x y = st.visual x y ∨
    (relaxOne g algo current cc st n).visual x y = 2 := by
  rcases relaxOne_cases g algo current cc st n with ⟨_, he⟩ | ⟨_, he⟩
  · rw [he]
    simp only [relaxUpd]
    by_cases h2 : n = g.goal
    · rw [if_pos h2]
      exact Or.inl rfl
    · rw [if_neg h2]
      exact updV_cases st.visual n 2 x y
  · rw [he]
    exact Or.inl rfl

theorem foldRelax_visual (g : GridM) (algo : String) (current : Coord)
    (cc : Nat) (ns : List Coord) (st : EState) (x y : Nat) :
    ((ns.foldl (relaxOne g algo current cc) st)).visual x y = st.visual x y ∨
    ((ns.foldl (relaxOne g algo current cc) st)).visual x y = 2 := by
  induction ns generalizing st with
  | nil => exact Or.inl rfl
  | cons n rest ih =>
    rcases ih (relaxOne g algo current cc st n) with h | h
    · rcases relaxOne_visual g algo current cc st n x y with h2 | h2
      · exact Or.inl (by rw [List.foldl_cons, h, h2])
      · exact Or.inr (by rw [List.foldl_cons, h, h2])
    · exact Or.inr (by rw [List.foldl_cons, h])

theorem markVisit_visual (g : GridM) (c : Coord) (st : EState) (x y : Nat) :
    (markVisit g c st).visual x y = st.visual x y ∨
    (markVisit g c st).visual x y = 3 := by
  rw [markVisit]
  by_cases h : c = g.start
  · rw [if_pos h]
    exact Or.inl rfl
  · rw [if_neg h]
    exact updV_cases st.visual c 3 x y

/-- A machine step taken from a non-reconstruction phase writes only the
values 2 and 3 into the visual grid. -/
theorem step_visual_no4 (g : GridM) (algo : String) (s : MState)
    (hph : ∀ c, s.phase ≠ Phase.reconAt c) (x y : Nat) :
    (nextS g algo s).st.visual x y = s.st.visual x y ∨
    (nextS g algo s).st.visual x y = 2 ∨
    (nextS g algo s).st.visual x y = 3 := by
  rcases hp : s.phase with _ | c | _ | _ | _
  · rcases step_expand_cases g algo s hp with ⟨_, he⟩ | ⟨e, rest, _, hcase⟩
    · rw [he, enterRecon_st]
      exact Or.inl rfl
    rcases hcase with ⟨_, he⟩ | ⟨_, cc, _, he⟩ | ⟨_, _, _, he⟩ | ⟨_, _, _, he⟩
    · rw [he, enterRecon_st]
      exact Or.inl rfl
    · rw [he]
      have hfold := foldRelax_visual g algo (minE e rest).2 cc
        (get_neighbors g (minE e rest).2)
        (markVisit g (minE e rest).2
          { s.st with pq := (e :: rest).erase (minE e rest) }) x y
      have hmark := markVisit_visual g (minE e rest).2
        { s.st with pq := (e :: rest).erase (minE e rest) } x y
      rcases hfold with h | h
      · rcases hmark with h2 | h2
        · exact Or.inl (by rw [h, h2])
        · exact Or.inr (Or.inr (by rw [h, h2]))
      · exact Or.inr (Or.inl h)
    · rw [he]
      rcases markVisit_visual g (minE e rest).2
          { s.st with pq := (e :: rest).erase (minE e rest) } x y with h | h
      · exact Or.inl h
      · exact Or.inr (Or.inr h)
    · rw [he]
      rcases markVisit_visual g (minE e rest).2
          { s.st with pq := (e :: rest).erase (minE e rest) } x y with h | h
      · exact Or.inl h
      · exact Or.inr (Or.inr h)
  · exact absurd hp (hph c)
  · rw [step_preDone g algo s hp]
    exact Or.inl rfl
  · rw [step_done g algo s hp]
    exact Or.inl rfl
  · rw [step_errSt g algo s hp]
    exact Or.inl rfl

/-- C8 core: with an unreachable goal no cell is ever marked as path. -/
theorem no_path_marks_of_unreachable (g : GridM) (algo : String)
    (hunreach : ¬ reachable g g.goal)
    (hbin : ∀ x y, g.grid x y ≠ 4) :
    ∀ n x y, (iterM g algo n).st.visual x y ≠ 4 := by
  intro n
  induction n with
  | zero =>
    intro x y
    exact hbin x y
  | succ n ih =>
    intro x y
    have hnr := no_recon_of_unreachable g algo hunreach n
    rcases step_visual_no4 g algo (iterM g algo n) hnr x y with h | h | h
    · rw [show iterM g algo (n + 1) = nextS g algo (iterM g algo n) from rfl, h]
      exact ih x y
    · rw [show iterM g algo (n + 1) = nextS g algo (iterM g algo n) from rfl, h]
      simp
    · rw [show iterM g algo (n + 1) = nextS g algo (iterM g algo n) from rfl, h]
      simp

/-- C8: if the goal is not reachable from the start through open cells, the
run still reaches the terminal DONE state, never raises (no error state),
and never marks any cell as part of a path. -/
theorem c8_unreachable_goal_clean_finish (g : GridM) (algo : String)
    (hunreach : ¬ reachable g g.goal)
    (hbin : ∀ x y, g.grid x y ≠ 4) :
    (∃ n, (iterM g algo n).phase = Phase.done) ∧
    (∀ n, (iterM g algo n).phase ≠ Phase.errSt) ∧
    (∀ n x y, (iterM g algo n).st.visual x y ≠ 4) :=
  ⟨iterM_terminates g algo, iterM_no_err g algo,
    no_path_marks_of_unreachable g algo hunreach hbin⟩

/-- 3×3 grid whose goal (2,2) is walled off from the start. -/
def gUnreachEx : GridM := ⟨3, wallGrid [(1,2),(2,1)], (0,0), (2,2)⟩

theorem gUnreachEx_unreachable : ¬ reachable gUnreachEx gUnreachEx.goal :=
  unreachable_of_fixpoint gUnreachEx 8 (by decide) (by decide)

/-- Witness for C8 on the concrete walled-off grid. -/
theorem c8_unreachable_goal_clean_finish_witness :
    (¬ reachable gUnreachEx gUnreachEx.goal) ∧
    ((∃ n, (iterM gUnreachEx "dijkstra" n).phase = Phase.done) ∧
      (∀ n, (iterM gUnreachEx "dijkstra" n).phase ≠ Phase.errSt) ∧
      (∀ n x y, (iterM gUnreachEx "dijkstra" n).st.visual x y ≠ 4)) :=
  ⟨gUnreachEx_unreachable,
    c8_unreachable_goal_clean_finish gUnreachEx "dijkstra"
      gUnreachEx_unreachable (by
        intro x y
        by_cases h : ((x, y) : Coord) ∈ [((1 : Nat), (2 : Nat)), (2, 1)]
        · simp [gUnreachEx, wallGrid, h]
        · simp [gUnreachEx, wallGrid, h])⟩

/-! ## Shortest-path theory for the uniform mode -/

/-- Paths through open cells: `Steps g u v l` means `v` is reachable from
`u` in exactly `l` unit moves through `get_neighbors`. -/
inductive Steps (g : GridM) : Coord → Coord → Nat → Prop where
  | refl (u : Coord) : Steps g u u 0
  | cons {u w v : Coord} {n : Nat} : w ∈ get_neighbors g u →
      Steps g w v n → Steps g u v (n + 1)

theorem Steps_snoc {g : GridM} {a b c : Coord} {k : Nat}
    (hs : Steps g a b k) (hc : c ∈ get_neighbors g b) :
    Steps g a c (k + 1) := by
  induction hs with
  | refl u => exact Steps.cons hc (Steps.refl c)
  | @cons u w v n hw hrest ih => exact Steps.cons hw (ih hc)

theorem Steps_reachSet (g : GridM) {a b : Coord} {k : Nat}
    (hs : Steps g a b k) : ∀ m, a ∈ reachSet g m → b ∈ reachSet g (m + k) := by
  induction hs with
  | refl u =>
    intro m ha
    exact ha
  | @cons u w v n hw hrest ih =>
    intro m ha
    have h2 := ih (m + 1) (reachSet_step g m ha hw)
    have he : m + 1 + n = m + (n + 1) := by omega
    rw [← he]
    exact h2

theorem mem_reachSet_steps (g : GridM) {v : Coord} {n : Nat}
    (h : v ∈ reachSet g n) : ∃ k, k ≤ n ∧ Steps g g.start v k := by
  induction n generalizing v with
  | zero =>
    simp only [reachSet, List.mem_singleton] at h
    subst h
    exact ⟨0, le_refl _, Steps.refl g.start⟩
  | succ n ih =>
    rw [reachSet, List.mem_dedup, List.mem_append] at h
    rcases h with h | h
    · obtain ⟨k, hk, hs⟩ := ih h
      exact ⟨k, by omega, hs⟩
    · obtain ⟨u, hu, hnb⟩ := List.mem_flatMap.1 h
      obtain ⟨k, hk, hs⟩ := ih hu
      exact ⟨k + 1, by omega, Steps_snoc hs hnb⟩

theorem isDist_unique {g : GridM} {v : Coord} {d1 d2 : Nat}
    (h1 : isDist g v d1) (h2 : isDist g v d2) : d1 = d2 := by
  rcases Nat.lt_trichotomy d1 d2 with h | h | h
  · exact absurd h1.1 (h2.2 d1 h)
  · exact h
  · exact absurd h2.1 (h1.2 d2 h)

theorem exists_isDist_of_mem_reachSet {g : GridM} {v : Coord} {n : Nat}
    (h : v ∈ reachSet g n) : ∃ d, isDist g v d ∧ d ≤ n := by
  have hex : ∃ k, v ∈ reachSet g k := ⟨n, h⟩
  refine ⟨Nat.find hex, ⟨Nat.find_spec hex, ?_⟩, Nat.find_le h⟩
  intro k hk
  exact Nat.find_min hex hk

theorem isDist_start (g : GridM) : isDist g g.start 0 := by
  constructor
  · simp [reachSet]
  · intro k hk
    omega

theorem isDist_neighbor_le {g : GridM} {u w : Coord} {du : Nat}
    (hu : isDist g u du) (hw : w ∈ get_neighbors g u) :
    ∃ dw, isDist g w dw ∧ dw ≤ du + 1 :=
  exists_isDist_of_mem_reachSet (reachSet_step g du hu.1 hw)

theorem isDist_le_steps {g : GridM} {u v : Coord} {du l dv : Nat}
    (hu : isDist g u du) (hv : isDist g v dv) (hs : Steps g u v l) :
    dv ≤ du + l := by
  have h2 := Steps_reachSet g hs du hu.1
  by_contra hcon
  exact (hv.2 (du + l) (by omega)) h2

/-- Shifting one step along a shortest path: if a path from `u` to `v`
realizes the distance gap, its first stop `w` is at distance exactly
`du + 1` and the remaining path realizes the gap from `w`. -/
theorem shortest_shift {g : GridM} {u v : Coord} {du dv k : Nat}
    (hu : isDist g u du) (hv : isDist g v dv)
    (hs : Steps g u v (k + 1)) (hgap : du + (k + 1) = dv) :
    ∃ w, w ∈ get_neighbors g u ∧ Steps g w v k ∧
      isDist g w (du + 1) ∧ (du + 1) + k = dv := by
  rcases hs with _ | @⟨_, w, _, _, hw, hrest⟩
  obtain ⟨dw, hdw, hdwle⟩ := isDist_neighbor_le hu hw
  have hle : dv ≤ dw + k := isDist_le_steps hdw hv hrest
  have hdweq : dw = du + 1 := by omega
  exact ⟨w, hw, hrest, hdweq ▸ hdw, by omega⟩

/-- A shortest path realizing the exact distance exists from the start. -/
theorem exists_shortest_path {g : GridM} {v : Coord} {dv : Nat}
    (hv : isDist g v dv) : Steps g g.start v dv := by
  obtain ⟨k, hk, hs⟩ := mem_reachSet_steps g hv.1
  have h0 : g.start ∈ reachSet g 0 := by simp [reachSet]
  have h2 : v ∈ reachSet g (0 + k) := Steps_reachSet g hs 0 h0
  rw [Nat.zero_add] at h2
  have hke : k = dv := by
    by_contra hne
    exact (hv.2 k (by omega)) h2
  rw [← hke]
  exact hs

/-! ## Uniform-mode invariant -/

/-- Invariant specific to the uniform (Dijkstra) mode, maintained while the
machine is in the expansion phase. -/
structure UInv (g : GridM) (st : EState) : Prop where
  costDist : ∀ c v, alookup c st.cost = some v → ∃ d, isDist g c d ∧ d ≤ v
  settledPq : ∀ c d, isDist g c d → alookup c st.cost = some d →
    (∀ w ∈ get_neighbors g c, ∃ vw, alookup w st.cost = some vw ∧ vw ≤ d + 1) ∨
    ((d : ℚ), c) ∈ st.pq
  coverage : ∀ v dv, isDist g v dv → alookup v st.cost ≠ some dv →
    ∃ u du l, isDist g u du ∧ alookup u st.cost = some du ∧
      Steps g u v l ∧ du + l = dv ∧ ((du : ℚ), u) ∈ st.pq
  parentExact : ∀ c p, alookup c st.came_from = some (some p) →
    ∃ vc vp dp, alookup c st.cost = some vc ∧ alookup p st.cost = some vp ∧
      vc = vp + 1 ∧ isDist g p dp ∧ vp = dp

theorem UInv_init (g : GridM) : UInv g (initE g) := by
  constructor
  · intro c v h
    simp only [initE, alookup] at h
    by_cases hc : c = g.start
    · subst hc
      rw [if_pos rfl] at h
      have hv : v = 0 := (Option.some_inj.1 h).symm
      exact ⟨0, isDist_start g, by omega⟩
    · rw [if_neg hc] at h
      cases h
  · intro c d hd hcost
    simp only [initE, alookup] at hcost
    by_cases hc : c = g.start
    · subst hc
      rw [if_pos rfl] at hcost
      have hdv : d = 0 := by
        have h0 : (0 : Nat) = d := Option.some_inj.1 hcost
        omega
      refine Or.inr ?_
      subst hdv
      simp [initE]
    · rw [if_neg hc] at hcost
      cases hcost
  · intro v dv hdv hne
    refine ⟨g.start, 0, dv, isDist_start g, by simp [initE, alookup], ?_, by omega, ?_⟩
    · exact exists_shortest_path hdv
    · simp [initE]
  · intro c p h
    simp only [initE, alookup] at h
    by_cases hc : c = g.start
    · rw [if_pos hc] at h
      cases h
    · rw [if_neg hc] at h
      cases h

/-- In uniform mode the pushed priority is the plain cost. -/
theorem prioOf_uniform (g : GridM) {algo : String} (halgo : algo ≠ "astar")
    (new_cost : Nat) (n : Coord) :
    prioOf g algo new_cost n = (new_cost : ℚ) := by
  rw [prioOf, if_neg]
  simp only [beq_iff_eq]
  exact halgo

/-- The coordinate about to be popped is settled: its recorded cost is its
true BFS distance (uniform mode). -/
theorem settled_pop (g : GridM) (st : EState) (e : Entry) (rest : List Entry)
    (hE : EInv g st) (hU : UInv g st) (hpq : st.pq = e :: rest) :
    ∃ dc, isDist g (minE e rest).2 dc ∧
      alookup (minE e rest).2 st.cost = some dc := by
  have hmem : minE e rest ∈ st.pq := by
    rw [hpq]
    exact minE_mem e rest
  obtain ⟨cc, hcc, hccle⟩ := hE.pqCost (minE e rest).1 (minE e rest).2
    (by simpa using hmem)
  obtain ⟨dc, hdc, hdcle⟩ := hU.costDist (minE e rest).2 cc hcc
  by_cases hset : cc = dc
  · exact ⟨dc, hdc, hset ▸ hcc⟩
  · exfalso
    have hne : alookup (minE e rest).2 st.cost ≠ some dc := by
      rw [hcc]
      intro h
      exact hset (Option.some_inj.1 h)
    obtain ⟨u, du, l, hdu, hcu, hsteps, hgap, hupq⟩ :=
      hU.coverage (minE e rest).2 dc hdc hne
    have hl : 1 ≤ l := by
      rcases Nat.eq_zero_or_pos l with h0 | h0
      · exfalso
        subst h0
        rcases hsteps with _ | _
        rw [hcu] at hcc
        have : cc = du := (Option.some_inj.1 hcc).symm
        omega
      · exact h0
    have hdul : du < dc := by omega
    have hmin : entryLE (minE e rest) ((du : ℚ), u) := by
      apply minE_le e rest
      rw [← hpq]
      exact hupq
    have hfst : (minE e rest).1 ≤ (du : ℚ) := entryLE_fst_le hmin
    have hcast1 : (cc : ℚ) ≤ (du : ℚ) := le_trans hccle hfst
    have hcc_du : cc ≤ du := by exact_mod_cast hcast1
    omega

/-- In uniform mode, a relaxation never fires on a settled coordinate
adjacent to a settled popped node. -/
theorem no_fire_on_settled (g : GridM) {st : EState} {current n : Coord}
    {cc d : Nat} (hcur : isDist g current cc)
    (hn : n ∈ get_neighbors g current)
    (hd : isDist g n d) (hcost : alookup n st.cost = some d) :
    ¬ fires cc st.cost n := by
  intro hf
  have hle : d ≤ cc + 1 := by
    obtain ⟨dw, hdw, hdwle⟩ := isDist_neighbor_le hcur hn
    have : dw = d := isDist_unique hdw hd
    omega
  rcases hf with hf | ⟨old, hf, hlt⟩
  · rw [hcost] at hf
    cases hf
  · rw [hcost] at hf
    have : d = old := Option.some_inj.1 hf
    omega

/-- Entries present before the neighbor fold persist through it. -/
theorem foldRelax_pq_mono (g : GridM) (algo : String) (current : Coord)
    (cc : Nat) (ns : List Coord) (st : EState) {x : Entry} (hx : x ∈ st.pq) :
    x ∈ ((ns.foldl (relaxOne g algo current cc) st)).pq := by
  obtain ⟨P, hP⟩ := foldRelax_pq_prefix g algo current cc ns st
  rw [hP]
  exact List.mem_append_right P hx

/-- Pointwise effect of the whole neighbor fold: a coordinate is either left
completely untouched (cost and parent unchanged), or it was relaxed, in which
case its cost is `cc + 1`, its parent is `current`, and the corresponding
frontier entry was pushed. -/
theorem foldRelax_lookup (g : GridM) (algo : String) (current : Coord)
    (cc : Nat) (ns : List Coord) (st : EState) (m : Coord) :
    (alookup m ((ns.foldl (relaxOne g algo current cc) st)).cost =
        alookup m st.cost ∧
      alookup m ((ns.foldl (relaxOne g algo current cc) st)).came_from =
        alookup m st.came_from) ∨
    (m ∈ ns ∧
      alookup m ((ns.foldl (relaxOne g algo current cc) st)).cost =
        some (cc + 1) ∧
      alookup m ((ns.foldl (relaxOne g algo current cc) st)).came_from =
        some (some current) ∧
      (prioOf g algo (cc + 1) m, m) ∈
        ((ns.foldl (relaxOne g algo current cc) st)).pq) := by
  induction ns generalizing st with
  | nil => exact Or.inl ⟨rfl, rfl⟩
  | cons n rest ih =>
    rw [List.foldl_cons]
    rcases relaxOne_cases g algo current cc st n with ⟨hf, he⟩ | ⟨hf, he⟩
    · rw [he]
      by_cases hm : m = n
      · subst hm
        rcases ih (relaxUpd g algo current cc st m) with ⟨hc, hcf⟩ | ⟨hmem, hc, hcf, hpq⟩
        · refine Or.inr ⟨List.mem_cons_self m rest, ?_, ?_, ?_⟩
          · rw [hc]
            exact alookup_aupdate_self m (cc + 1) st.cost
          · rw [hcf]
            exact alookup_aupdate_self m (some current) st.came_from
          · refine foldRelax_pq_mono g algo current cc rest _ ?_
            show (prioOf g algo (cc + 1) m, m) ∈
              (prioOf g algo (cc + 1) m, m) :: st.pq
            exact List.mem_cons_self _ _
        · exact Or.inr ⟨List.mem_cons_self m rest, hc, hcf, hpq⟩
      · rcases ih (relaxUpd g algo current cc st n) with ⟨hc, hcf⟩ | ⟨hmem, hc, hcf, hpq⟩
        · refine Or.inl ⟨?_, ?_⟩
          · rw [hc]
            exact alookup_aupdate_ne hm (cc + 1) st.cost
          · rw [hcf]
            exact alookup_aupdate_ne hm (some current) st.came_from
        · exact Or.inr ⟨List.mem_cons_of_mem n hmem, hc, hcf, hpq⟩
    · rw [he]
      rcases ih st with h | ⟨hmem, h⟩
      · exact Or.inl h
      · exact Or.inr ⟨List.mem_cons_of_mem n hmem, h⟩

/-- After the neighbor fold, every neighbor of the popped node has a recorded
cost of at most `cc + 1`. -/
theorem foldRelax_done (g : GridM) (algo : String) (current : Coord)
    (cc : Nat) (ns : List Coord) (st : EState) :
    ∀ n ∈ ns, ∃ v,
      alookup n ((ns.foldl (relaxOne g algo current cc) st)).cost = some v ∧
      v ≤ cc + 1 := by
  induction ns generalizing st with
  | nil =>
    intro n hn
    cases hn
  | cons n0 rest ih =>
    intro n hn
    rw [List.foldl_cons]
    rcases List.mem_cons.1 hn with heq | hn
    · rw [heq]
      have hbase : ∃ v, alookup n0 (relaxOne g algo current cc st n0).cost =
          some v ∧ v ≤ cc + 1 := by
        rcases relaxOne_cases g algo current cc st n0 with ⟨hf, he⟩ | ⟨hf, he⟩
        · refine ⟨cc + 1, ?_, le_refl _⟩
          rw [he]
          exact alookup_aupdate_self n0 (cc + 1) st.cost
        · rw [he]
          rcases hc : alookup n0 st.cost with _ | old
          · exact absurd (Or.inl hc) hf
          · have hle : ¬ (cc + 1 < old) := fun hlt => hf (Or.inr ⟨old, hc, hlt⟩)
            exact ⟨old, rfl, by omega⟩
      obtain ⟨v, hv, hvle⟩ := hbase
      obtain ⟨w, hw, hwle⟩ := foldRelax_costMono g algo current cc rest
        (relaxOne g algo current cc st n0) n0 v hv
      exact ⟨w, hw, le_trans hwle hvle⟩
    · exact ih (relaxOne g algo current cc st n0) n hn

/-- Walking along a shortest path from a settled node: either the walk passes
the target (impossible when the target is not settled) or some node on it
holds a frontier entry at its exact distance. -/
theorem walkWitness (g : GridM) (st : EState)
    (hCD : ∀ c v, alookup c st.cost = some v → ∃ d, isDist g c d ∧ d ≤ v)
    (hSP : ∀ c d, isDist g c d → alookup c st.cost = some d →
      (∀ w ∈ get_neighbors g c, ∃ vw, alookup w st.cost = some vw ∧ vw ≤ d + 1) ∨
      ((d : ℚ), c) ∈ st.pq) :
    ∀ l u du v dv, isDist g u du → alookup u st.cost = some du →
      Steps g u v l → du + l = dv → isDist g v dv →
      alookup v st.cost ≠ some dv →
      ∃ u2 du2 l2, isDist g u2 du2 ∧ alookup u2 st.cost = some du2 ∧
        Steps g u2 v l2 ∧ du2 + l2 = dv ∧ ((du2 : ℚ), u2) ∈ st.pq := by
  intro l
  induction l with
  | zero =>
    intro u du v dv hu hcu hs hgap hv hne
    exfalso
    cases hs
    have hdd : du = dv := by omega
    subst hdd
    exact hne hcu
  | succ k ih =>
    intro u du v dv hu hcu hs hgap hv hne
    rcases hSP u du hu hcu with hdone | hpq
    · obtain ⟨w, hw, hrest, hdw, hgap2⟩ := shortest_shift hu hv hs hgap
      obtain ⟨vw, hvw, hvwle⟩ := hdone w hw
      obtain ⟨d2, hd2, hd2le⟩ := hCD w vw hvw
      have hdeq : d2 = du + 1 := isDist_unique hd2 hdw
      have hveq : vw = du + 1 := by omega
      rw [hveq] at hvw
      exact ih w (du + 1) v dv hdw hvw hrest hgap2 hv hne
    · exact ⟨u, du, k + 1, hu, hcu, hs, hgap, hpq⟩

/-- The neighbor fold of an expansion step whose popped node is settled
preserves the uniform-mode invariant (uniform mode only). -/
theorem relax_UInv (g : GridM) {algo : String} (halgo : algo ≠ "astar")
    (st st2 : EState) (current : Coord)
    (hc2 : st2.cost = st.cost) (hf2 : st2.came_from = st.came_from)
    (hp2 : ∀ x : Entry, x ∈ st.pq → x.2 ≠ current → x ∈ st2.pq)
    (hU : UInv g st) (cc : Nat) (hcc : alookup current st.cost = some cc)
    (hcur : isDist g current cc)
    (hstart : alookup g.start st.cost = some 0) :
    UInv g ((get_neighbors g current).foldl (relaxOne g algo current cc) st2) := by
  set st3 := (get_neighbors g current).foldl (relaxOne g algo current cc) st2 with hst3
  have hL : ∀ m2 : Coord,
      (alookup m2 st3.cost = alookup m2 st.cost ∧
        alookup m2 st3.came_from = alookup m2 st.came_from) ∨
      (m2 ∈ get_neighbors g current ∧ alookup m2 st3.cost = some (cc + 1) ∧
        alookup m2 st3.came_from = some (some current) ∧
        (((cc + 1 : Nat) : ℚ), m2) ∈ st3.pq) := by
    intro m2
    have h := foldRelax_lookup g algo current cc (get_neighbors g current) st2 m2
    rw [hc2, hf2, prioOf_uniform g halgo (cc + 1) m2] at h
    exact h
  have hD : ∀ n ∈ get_neighbors g current, ∃ v,
      alookup n st3.cost = some v ∧ v ≤ cc + 1 := by
    intro n hn
    exact foldRelax_done g algo current cc (get_neighbors g current) st2 n hn
  have hM : costMono st.cost st3.cost := by
    have h := foldRelax_costMono g algo current cc (get_neighbors g current) st2
    rw [hc2] at h
    exact h
  have hCD3 : ∀ c v, alookup c st3.cost = some v → ∃ d, isDist g c d ∧ d ≤ v := by
    intro c v hv
    rcases hL c with ⟨hc, _⟩ | ⟨hmem, hc, _, _⟩
    · rw [hv] at hc
      exact hU.costDist c v hc.symm
    · rw [hv] at hc
      have hveq : v = cc + 1 := Option.some_inj.1 hc
      obtain ⟨dw, hdw, hdwle⟩ := isDist_neighbor_le hcur hmem
      exact ⟨dw, hdw, by omega⟩
  have hsettled : ∀ c d, isDist g c d → alookup c st.cost = some d →
      alookup c st3.cost = some d := by
    intro c d hd hc
    obtain ⟨w, hw, hwle⟩ := hM c d hc
    obtain ⟨d2, hd2, hd2le⟩ := hCD3 c w hw
    have hdd : d2 = d := isDist_unique hd2 hd
    have hwd : w = d := by omega
    rw [hwd] at hw
    exact hw
  have hcur3 : alookup current st3.cost = some cc := hsettled current cc hcur hcc
  have hSP3 : ∀ c d, isDist g c d → alookup c st3.cost = some d →
      (∀ w ∈ get_neighbors g c, ∃ vw, alookup w st3.cost = some vw ∧ vw ≤ d + 1) ∨
      ((d : ℚ), c) ∈ st3.pq := by
    intro c d hd hcd
    by_cases hceq : c = current
    · subst hceq
      have hdc2 : d = cc := Option.some_inj.1 (hcd.symm.trans hcur3)
      refine Or.inl ?_
      intro w hw
      obtain ⟨vw, hvw, hvwle⟩ := hD w hw
      exact ⟨vw, hvw, by omega⟩
    · rcases hL c with ⟨hc, _⟩ | ⟨hmem, hc, _, hcpq⟩
      · have hold : alookup c st.cost = some d := by
          rw [← hc]
          exact hcd
        rcases hU.settledPq c d hd hold with hdone | hpq2
        · refine Or.inl ?_
          intro w hw
          obtain ⟨vw, hvw, hvwle⟩ := hdone w hw
          obtain ⟨w2, hw2, hw2le⟩ := hM w vw hvw
          exact ⟨w2, hw2, le_trans hw2le hvwle⟩
        · refine Or.inr ?_
          refine foldRelax_pq_mono g algo current cc (get_neighbors g current) st2 ?_
          exact hp2 _ hpq2 (fun h2 => hceq h2)
      · have hdeq : d = cc + 1 := Option.some_inj.1 (hcd.symm.trans hc)
        refine Or.inr ?_
        rw [hdeq]
        exact hcpq
  have hPE3 : ∀ c p, alookup c st3.came_from = some (some p) →
      ∃ vc vp dp, alookup c st3.cost = some vc ∧ alookup p st3.cost = some vp ∧
        vc = vp + 1 ∧ isDist g p dp ∧ vp = dp := by
    intro c p hcp
    rcases hL c with ⟨hcc2, hcf2⟩ | ⟨hmem, hcc2, hcf2, _⟩
    · have hold : alookup c st.came_from = some (some p) := by
        rw [← hcf2]
        exact hcp
      obtain ⟨vc, vp, dp, hvc, hvp, hvce, hdp, hvpd⟩ := hU.parentExact c p hold
      refine ⟨vc, vp, dp, ?_, ?_, hvce, hdp, hvpd⟩
      · rw [hcc2]
        exact hvc
      · refine hsettled p vp ?_ hvp
        rw [hvpd]
        exact hdp
    · have hpeq : p = current :=
        Option.some_inj.1 (Option.some_inj.1 (hcp.symm.trans hcf2))
      subst hpeq
      exact ⟨cc + 1, cc, cc, hcc2, hcur3, rfl, hcur, rfl⟩
  have hCOV3 : ∀ v dv, isDist g v dv → alookup v st3.cost ≠ some dv →
      ∃ u du l, isDist g u du ∧ alookup u st3.cost = some du ∧
        Steps g u v l ∧ du + l = dv ∧ ((du : ℚ), u) ∈ st3.pq := by
    intro v dv hv hne
    have hstart3 : alookup g.start st3.cost = some 0 :=
      hsettled g.start 0 (isDist_start g) hstart
    exact walkWitness g st3 hCD3 hSP3 dv g.start 0 v dv (isDist_start g)
      hstart3 (exists_shortest_path hv) (by omega) hv hne
  exact ⟨hCD3, hSP3, hCOV3, hPE3⟩

/-- A machine step that stays in the expansion phase preserves the
uniform-mode invariant (uniform mode only). -/
theorem step_UInv (g : GridM) {algo : String} (halgo : algo ≠ "astar")
    (s : MState) (hph : s.phase = .expand) (hE : EInv g s.st) (hU : UInv g s.st)
    (hnext : (nextS g algo s).phase = .expand) :
    UInv g (nextS g algo s).st := by
  rcases step_expand_cases g algo s hph with ⟨hpq0, he⟩ | ⟨e, rest, hpq, hcase⟩
  · rw [he] at hnext
    exact absurd hnext (enterRecon_phase g s.st)
  rcases hcase with ⟨hg, he⟩ | ⟨hg, cc, hcc, he⟩ | ⟨hg, hcc, hn, he⟩ | ⟨hg, hcc, hn, he⟩
  · rw [he] at hnext
    exact absurd hnext (enterRecon_phase g _)
  · obtain ⟨dc, hdc, hdcc⟩ := settled_pop g s.st e rest hE hU hpq
    rw [hcc] at hdcc
    have hdceq : cc = dc := Option.some_inj.1 hdcc
    have hcur : isDist g (minE e rest).2 cc := by
      rw [hdceq]
      exact hdc
    rw [he]
    show UInv g ((get_neighbors g (minE e rest).2).foldl
      (relaxOne g algo (minE e rest).2 cc)
      (markVisit g (minE e rest).2
        { s.st with pq := (e :: rest).erase (minE e rest) }))
    refine relax_UInv g halgo s.st
      (markVisit g (minE e rest).2
        { s.st with pq := (e :: rest).erase (minE e rest) })
      (minE e rest).2
      (markVisit_cost g _ _) (markVisit_came g _ _) ?_ hU cc hcc hcur hE.costStart
    intro x hx hxne
    rw [markVisit_pq]
    show x ∈ (e :: rest).erase (minE e rest)
    refine (List.mem_erase_of_ne ?_).2 ?_
    · intro hEq
      exact hxne (congrArg Prod.snd hEq)
    · rw [← hpq]
      exact hx
  · exfalso
    obtain ⟨v, hv, _⟩ := hE.pqCost (minE e rest).1 (minE e rest).2
      (by rw [hpq, Prod.mk.eta]; exact minE_mem e rest)
    rw [hv] at hcc
    cases hcc
  · exfalso
    obtain ⟨v, hv, _⟩ := hE.pqCost (minE e rest).1 (minE e rest).2
      (by rw [hpq, Prod.mk.eta]; exact minE_mem e rest)
    rw [hv] at hcc
    cases hcc

/-- The expansion phase is never re-entered: a state whose successor expands
was itself expanding. -/
theorem into_expand (g : GridM) (algo : String) (s : MState)
    (hnext : (nextS g algo s).phase = .expand) : s.phase = .expand := by
  rcases hph : s.phase with _ | c | _ | _ | _
  · rfl
  · rcases step_recon_cases g algo s c hph with ⟨_, he⟩ | ⟨_, p, _, he⟩ | ⟨_, _, he⟩ <;>
      · rw [he] at hnext
        exact absurd hnext (by simp)
  · rw [step_preDone g algo s hph] at hnext
    exact absurd hnext (by simp)
  · rw [step_done g algo s hph] at hnext
    exact absurd hnext (by simp)
  · rw [step_errSt g algo s hph] at hnext
    exact absurd hnext (by simp)

/-- The uniform-mode invariant holds at every expansion state of a uniform
run. -/
theorem iterM_UInv (g : GridM) {algo : String} (halgo : algo ≠ "astar")
    (n : Nat) (hph : (iterM g algo n).phase = .expand) :
    UInv g (iterM g algo n).st := by
  induction n with
  | zero => exact UInv_init g
  | succ n ih =>
    have hprev : (iterM g algo n).phase = .expand :=
      into_expand g algo (iterM g algo n) hph
    exact step_UInv g halgo (iterM g algo n) hprev (iterM_EInv g algo n) (ih hprev) hph

/-! ## Reconstruction counting (uniform mode) -/

theorem reconActive_of_phase (g : GridM) (s : MState) (c : Coord)
    (hph : s.phase = .reconAt c) :
    reconActive g s = decide (c ≠ g.start) := by
  obtain ⟨ph, st⟩ := s
  cases hph
  rfl

theorem reconActive_false (g : GridM) (s : MState)
    (hph : ∀ c, s.phase ≠ .reconAt c) : reconActive g s = false := by
  obtain ⟨ph, st⟩ := s
  rcases ph with _ | c | _ | _ | _
  · rfl
  · exact absurd rfl (hph c)
  · rfl
  · rfl
  · rfl

theorem reconCount_succ (g : GridM) (algo : String) (n : Nat) :
    reconCount g algo (n + 1) =
      reconCount g algo n +
        (if reconActive g (iterM g algo n) = true then 1 else 0) := by
  rw [reconCount, reconCount, List.range_succ, List.filter_append]
  by_cases h : reconActive g (iterM g algo n) = true <;>
    simp [h]

/-- Parent facts used to count the reconstruction walk: exact parent costs,
domain agreement, start-only root, and the start cost. -/
def PF (g : GridM) (st : EState) : Prop :=
  (∀ c p, alookup c st.came_from = some (some p) →
    ∃ vp, alookup c st.cost = some (vp + 1) ∧ alookup p st.cost = some vp) ∧
  (∀ c v, alookup c st.cost = some v →
    (alookup c st.came_from).isSome = true) ∧
  (∀ c, alookup c st.came_from = some none → c = g.start) ∧
  alookup g.start st.cost = some 0

theorem PF_of_inv (g : GridM) {st : EState} (hE : EInv g st) (hU : UInv g st) :
    PF g st := by
  refine ⟨?_, ?_, hE.parentNone, hE.costStart⟩
  · intro c p hcp
    obtain ⟨vc, vp, dp, hvc, hvp, hvce, _, _⟩ := hU.parentExact c p hcp
    refine ⟨vp, ?_, hvp⟩
    rw [← hvce]
    exact hvc
  · intro c v hcv
    have h1 : c ∈ akeys st.cost := akeys_mem_of_alookup hcv
    have h2 : c ∈ akeys st.came_from := (hE.domEq c).1 h1
    exact (alookup_isSome_iff c st.came_from).2 h2

/-- `PF` only inspects the cost and parent maps. -/
theorem PF_congr (g : GridM) {st st2 : EState} (h : PF g st)
    (hc : st2.cost = st.cost) (hf : st2.came_from = st.came_from) : PF g st2 := by
  obtain ⟨h1, h2, h3, h4⟩ := h
  refine ⟨?_, ?_, ?_, ?_⟩
  · rw [hf, hc]
    exact h1
  · rw [hc, hf]
    exact h2
  · rw [hf]
    exact h3
  · rw [hc]
    exact h4

/-- The reconstruction walk from a cursor with recorded cost `k` performs
exactly `k` counted iterations and lands in the `done` phase `k + 2` machine
steps later, never passing `done` before. -/
theorem recon_walk (g : GridM) (algo : String) :
    ∀ (k i : Nat) (c : Coord),
      (iterM g algo i).phase = .reconAt c →
      alookup c (iterM g algo i).st.cost = some k →
      PF g (iterM g algo i).st →
      (iterM g algo (i + (k + 2))).phase = .done ∧
      reconCount g algo (i + (k + 2)) = reconCount g algo i + k ∧
      ∀ j ≤ k + 1, (iterM g algo (i + j)).phase ≠ .done := by
  intro k
  induction k with
  | zero =>
    intro i c hph hck hPF
    obtain ⟨hPE, hdom, hpn, hs0⟩ := hPF
    have hcs : c = g.start := by
      by_contra hne
      have hiskey := hdom c 0 hck
      rcases hcf : alookup c (iterM g algo i).st.came_from with _ | p
      · rw [hcf] at hiskey
        simp at hiskey
      · rcases p with _ | p2
        · exact hne (hpn c hcf)
        · obtain ⟨vp, hvc, _⟩ := hPE c p2 hcf
          exact absurd (Option.some_inj.1 (hvc.symm.trans hck)) (by omega)
    subst hcs
    rcases step_recon_cases g algo (iterM g algo i) g.start hph with
      ⟨_, he⟩ | ⟨hne, _⟩ | ⟨hne, _⟩
    · have h1 : (iterM g algo (i + 1)).phase = .preDone := by
        show (nextS g algo (iterM g algo i)).phase = .preDone
        rw [he]
      have h2 : (iterM g algo (i + 2)).phase = .done := by
        show (nextS g algo (iterM g algo (i + 1))).phase = .done
        rw [step_preDone g algo _ h1]
      have hra0 : reconActive g (iterM g algo i) = false := by
        rw [reconActive_of_phase g _ g.start hph]
        simp
      have hra1 : reconActive g (iterM g algo (i + 1)) = false := by
        refine reconActive_false g _ ?_
        intro c2 hc2
        rw [h1] at hc2
        cases hc2
      refine ⟨h2, ?_, ?_⟩
      · have e1 : reconCount g algo (i + 1) = reconCount g algo i := by
          rw [reconCount_succ, hra0]
          simp
        have e2 : reconCount g algo (i + 2) = reconCount g algo (i + 1) := by
          rw [show i + 2 = (i + 1) + 1 by omega, reconCount_succ, hra1]
          simp
        rw [show i + (0 + 2) = i + 2 by omega, e2, e1]
        omega
      · intro j hj
        interval_cases j
        · rw [show i + 0 = i by omega, hph]
          simp
        · rw [h1]
          simp
    · exact absurd rfl hne
    · exact absurd rfl hne
  | succ k ih =>
    intro i c hph hck hPF
    obtain ⟨hPE, hdom, hpn, hs0⟩ := hPF
    have hcs : c ≠ g.start := by
      intro hEq
      rw [hEq] at hck
      exact absurd (Option.some_inj.1 (hck.symm.trans hs0)) (by omega)
    rcases step_recon_cases g algo (iterM g algo i) c hph with
      ⟨hstart, _⟩ | ⟨_, p, hcf, he⟩ | ⟨_, herr, _⟩
    · exact absurd hstart hcs
    · obtain ⟨vp, hvc, hvp⟩ := hPE c p hcf
      have hvpk : vp = k := by
        have h2 := Option.some_inj.1 (hck.symm.trans hvc)
        omega
      rw [hvpk] at hvp
      have hit : iterM g algo (i + 1) = ⟨.reconAt p,
          { (iterM g algo i).st with
            visual := updV (iterM g algo i).st.visual c 4 }⟩ := he
      have h1ph : (iterM g algo (i + 1)).phase = .reconAt p := by rw [hit]
      have h1cost : (iterM g algo (i + 1)).st.cost =
          (iterM g algo i).st.cost := by rw [hit]
      have h1came : (iterM g algo (i + 1)).st.came_from =
          (iterM g algo i).st.came_from := by rw [hit]
      have hPF1 : PF g (iterM g algo (i + 1)).st := by
        refine ⟨?_, ?_, ?_, ?_⟩
        · intro c2 p2 h
          rw [h1came] at h
          obtain ⟨vp2, ha, hb⟩ := hPE c2 p2 h
          refine ⟨vp2, ?_, ?_⟩
          · rw [h1cost]
            exact ha
          · rw [h1cost]
            exact hb
        · intro c2 v h
          rw [h1cost] at h
          rw [h1came]
          exact hdom c2 v h
        · intro c2 h
          rw [h1came] at h
          exact hpn c2 h
        · rw [h1cost]
          exact hs0
      have hp1 : alookup p (iterM g algo (i + 1)).st.cost = some k := by
        rw [h1cost]
        exact hvp
      obtain ⟨hdone, hcount, hnod⟩ := ih (i + 1) p h1ph hp1 hPF1
      have hra : reconActive g (iterM g algo i) = true := by
        rw [reconActive_of_phase g _ c hph]
        simp [hcs]
      refine ⟨?_, ?_, ?_⟩
      · rw [show i + (k + 1 + 2) = (i + 1) + (k + 2) by omega]
        exact hdone
      · rw [show i + (k + 1 + 2) = (i + 1) + (k + 2) by omega, hcount,
          reconCount_succ g algo i, hra]
        simp
        omega
      · intro j hj
        rcases Nat.eq_zero_or_pos j with h0 | h0
        · subst h0
          rw [show i + 0 = i by omega, hph]
          simp
        · rw [show i + j = (i + 1) + (j - 1) by omega]
          exact hnod (j - 1) (by omega)
    · exfalso
      have hiskey := hdom c (k + 1) hck
      rcases herr with herr | herr
      · exact hcs (hpn c herr)
      · rw [herr] at hiskey
        simp at hiskey

/-- Once done, the run stays done and the reconstruction count freezes. -/
theorem done_absorb (g : GridM) (algo : String) (m : Nat)
    (hm : (iterM g algo m).phase = .done) :
    ∀ t, (iterM g algo (m + t)).phase = .done ∧
      reconCount g algo (m + t) = reconCount g algo m := by
  intro t
  induction t with
  | zero => exact ⟨hm, rfl⟩
  | succ t iht =>
    obtain ⟨hph, hcnt⟩ := iht
    constructor
    · show (nextS g algo (iterM g algo (m + t))).phase = .done
      rw [step_done g algo _ hph]
    · show reconCount g algo (m + t + 1) = reconCount g algo m
      rw [reconCount_succ]
      have hrf : reconActive g (iterM g algo (m + t)) = false := by
        refine reconActive_false g _ ?_
        intro c2 hc2
        rw [hph] at hc2
        cases hc2
      rw [hrf, hcnt]
      simp

/-- On the step that leaves the expansion phase in uniform mode with a
reachable goal, the goal is settled at its true distance and reconstruction
is entered at the goal. -/
theorem expand_exit_goal (g : GridM) {algo : String} (halgo : algo ≠ "astar")
    {d : Nat} (hd : isDist g g.goal d) (i : Nat)
    (hph : (iterM g algo i).phase = .expand)
    (hnext : (iterM g algo (i + 1)).phase ≠ .expand) :
    (iterM g algo (i + 1)).phase = .reconAt g.goal ∧
    alookup g.goal (iterM g algo (i + 1)).st.cost = some d ∧
    PF g (iterM g algo (i + 1)).st := by
  have hE := iterM_EInv g algo i
  have hU := iterM_UInv g halgo i hph
  have hstep : iterM g algo (i + 1) = nextS g algo (iterM g algo i) := rfl
  rcases step_expand_cases g algo (iterM g algo i) hph with
    ⟨hpq0, he⟩ | ⟨e, rest, hpq, hcase⟩
  · have hcost : alookup g.goal (iterM g algo i).st.cost = some d := by
      by_contra hne
      obtain ⟨u, du, l, _, _, _, _, hupq⟩ := hU.coverage g.goal d hd hne
      rw [hpq0] at hupq
      cases hupq
    have hiskey : (alookup g.goal
        (iterM g algo i).st.came_from).isSome = true := by
      have h1 := (hE.domEq g.goal).1 (akeys_mem_of_alookup hcost)
      exact (alookup_isSome_iff g.goal _).2 h1
    rw [hstep, he, enterRecon, if_pos hiskey]
    exact ⟨rfl, hcost, PF_of_inv g hE hU⟩
  · rcases hcase with ⟨hg, he⟩ | ⟨hg, cc, hcc, he⟩ | ⟨hg, hcc, hn, he⟩ | ⟨hg, hcc, hn, he⟩
    · obtain ⟨dc, hdc, hdcc⟩ := settled_pop g (iterM g algo i).st e rest hE hU hpq
      rw [hg] at hdc hdcc
      have hdeq : dc = d := isDist_unique hdc hd
      rw [hdeq] at hdcc
      have hiskey : (alookup g.goal
          ({ (iterM g algo i).st with
            pq := (e :: rest).erase (minE e rest) }).came_from).isSome = true := by
        have h1 := (hE.domEq g.goal).1 (akeys_mem_of_alookup hdcc)
        exact (alookup_isSome_iff g.goal _).2 h1
      rw [hstep, he, enterRecon, if_pos hiskey]
      exact ⟨rfl, hdcc, PF_congr g (PF_of_inv g hE hU) rfl rfl⟩
    · exfalso
      apply hnext
      rw [hstep, he]
    · exfalso
      obtain ⟨v, hv, _⟩ := hE.pqCost (minE e rest).1 (minE e rest).2
        (by rw [hpq, Prod.mk.eta]; exact minE_mem e rest)
      rw [hv] at hcc
      cases hcc
    · exfalso
      obtain ⟨v, hv, _⟩ := hE.pqCost (minE e rest).1 (minE e rest).2
        (by rw [hpq, Prod.mk.eta]; exact minE_mem e rest)
      rw [hv] at hcc
      cases hcc

/-! ## Claim C1 -/

/-- C1: in uniform (Dijkstra) mode, for every grid whose goal is reachable
from the start through open cells at BFS distance `d` (unit costs,
4-directional moves), the run reaches DONE and the reconstructed path has
exactly `d` edges: the number of reconstruction iterations (each drawing one
path cell and following one parent link) equals `d` at every DONE state. -/
theorem c1_uniform_shortest_path (g : GridM) (algo : String)
    (halgo : algo ≠ "astar") (d : Nat) (hd : isDist g g.goal d) :
    (∃ n, (iterM g algo n).phase = .done) ∧
    ∀ n, (iterM g algo n).phase = .done → reconCount g algo n = d := by
  obtain ⟨n0, hn0⟩ := iterM_terminates g algo
  refine ⟨⟨n0, hn0⟩, ?_⟩
  have hex : ∃ m, ¬ ((iterM g algo m).phase = .expand) := by
    refine ⟨n0, ?_⟩
    rw [hn0]
    simp
  have hNspec : ¬ ((iterM g algo (Nat.find hex)).phase = .expand) :=
    Nat.find_spec hex
  have hNmin : ∀ m, m < Nat.find hex → (iterM g algo m).phase = .expand :=
    fun m hm => not_not.1 (Nat.find_min hex hm)
  obtain ⟨i, hi⟩ : ∃ i, Nat.find hex = i + 1 := by
    rcases h0 : Nat.find hex with _ | i2
    · exfalso
      apply hNspec
      rw [h0]
      rfl
    · exact ⟨i2, rfl⟩
  have hphi : (iterM g algo i).phase = .expand := hNmin i (by omega)
  have hnexti : (iterM g algo (i + 1)).phase ≠ .expand := by
    rw [← hi]
    exact hNspec
  obtain ⟨hreck, hcost, hPF⟩ := expand_exit_goal g halgo hd i hphi hnexti
  obtain ⟨hdoneN, hcountN, hnodN⟩ :=
    recon_walk g algo d (i + 1) g.goal hreck hcost hPF
  have hzero : ∀ m, m ≤ i + 1 → reconCount g algo m = 0 := by
    intro m
    induction m with
    | zero =>
      intro _
      rfl
    | succ m ihm =>
      intro hm
      have hrf : reconActive g (iterM g algo m) = false := by
        refine reconActive_false g _ ?_
        intro c2 hc2
        have hexp := hNmin m (by omega)
        rw [hexp] at hc2
        cases hc2
      rw [reconCount_succ, hrf, ihm (by omega)]
      simp
  intro n hn
  have hge : (i + 1) + (d + 2) ≤ n := by
    by_contra hlt
    push_neg at hlt
    rcases Nat.lt_or_ge n (i + 1) with h1 | h1
    · have hexp := hNmin n (by omega)
      rw [hexp] at hn
      cases hn
    · have hj : n = (i + 1) + (n - (i + 1)) := by omega
      have hnd := hnodN (n - (i + 1)) (by omega)
      rw [← hj] at hnd
      exact hnd hn
  obtain ⟨t, ht⟩ : ∃ t, n = ((i + 1) + (d + 2)) + t :=
    ⟨n - ((i + 1) + (d + 2)), by omega⟩
  have habs := done_absorb g algo ((i + 1) + (d + 2)) hdoneN t
  rw [← ht] at habs
  rw [habs.2, hcountN, hzero (i + 1) (le_refl _)]
  omega

set_option maxRecDepth 8000 in
theorem c1_uniform_shortest_path_witness :
    "dijkstra" ≠ "astar" ∧ isDist gEmpty5 gEmpty5.goal 8 ∧
    (iterM gEmpty5 "dijkstra" 35).phase = Phase.done ∧
    reconCount gEmpty5 "dijkstra" 35 = 8 :=
  ⟨by decide, by decide, by decide,
    (c1_uniform_shortest_path gEmpty5 "dijkstra" (by decide) 8
      (by decide)).2 35 (by decide)⟩

/-! ## Claim C2, amended theorem -/

/-- A firing relaxation of a non-goal neighbor writes the frontier value 2
into the visual grid unconditionally. -/
theorem relaxOne_sets_frontier (g : GridM) (algo : String) (current : Coord)
    (cc : Nat) (st : EState) (n : Coord) (hf : fires cc st.cost n)
    (hn : n ≠ g.goal) :
    (relaxOne g algo current cc st n).visual n.1 n.2 = 2 := by
  rw [relaxOne_fires g algo current cc st n hf]
  show (if n = g.goal then st.visual else updV st.visual n 2) n.1 n.2 = 2
  rw [if_neg hn]
  show (if n.1 = n.1 ∧ n.2 = n.2 then (2 : Nat) else st.visual n.1 n.2) = 2
  exact if_pos ⟨rfl, rfl⟩

theorem markVisit_visual_cases (g : GridM) (c : Coord) (st : EState)
    (x y : Nat) :
    (markVisit g c st).visual x y = st.visual x y ∨
    ((markVisit g c st).visual x y = 3 ∧ x = c.1 ∧ y = c.2 ∧ c ≠ g.start) := by
  rw [markVisit]
  by_cases h : c = g.start
  · rw [if_pos h]
    exact Or.inl rfl
  · rw [if_neg h]
    by_cases h2 : x = c.1 ∧ y = c.2
    · refine Or.inr ⟨?_, h2.1, h2.2, h⟩
      show (if x = c.1 ∧ y = c.2 then (3 : Nat) else st.visual x y) = 3
      exact if_pos h2
    · refine Or.inl ?_
      show (if x = c.1 ∧ y = c.2 then (3 : Nat) else st.visual x y) = st.visual x y
      exact if_neg h2

theorem foldRelax_visual_eq3 (g : GridM) (algo : String) (current : Coord)
    (cc : Nat) (ns : List Coord) (st : EState) (x y : Nat)
    (h : ((ns.foldl (relaxOne g algo current cc) st)).visual x y = 3) :
    st.visual x y = 3 := by
  rcases foldRelax_visual g algo current cc ns st x y with h2 | h2
  · rw [← h2]
    exact h
  · rw [h2] at h
    simp at h

/-- A cell whose recorded cost can never be beaten during the fold keeps its
visual value through the whole fold. -/
theorem foldRelax_visual_keep (g : GridM) (algo : String) (current : Coord)
    (cc : Nat) (ns : List Coord) (st : EState) (c : Coord)
    (hvd : ∃ vd, alookup c st.cost = some vd ∧ (c ∈ ns → ¬ (cc + 1 < vd))) :
    ((ns.foldl (relaxOne g algo current cc) st)).visual c.1 c.2 =
      st.visual c.1 c.2 := by
  induction ns generalizing st with
  | nil => rfl
  | cons n0 rest ih =>
    obtain ⟨vd, hvd1, hvd2⟩ := hvd
    rw [List.foldl_cons]
    by_cases hnc : n0 = c
    · subst hnc
      have hnofire : ¬ fires cc st.cost n0 := by
        rintro (h | ⟨old, ho, hlt⟩)
        · rw [hvd1] at h
          cases h
        · rw [hvd1] at ho
          have hoe : vd = old := Option.some_inj.1 ho
          exact (hvd2 (List.mem_cons_self n0 rest)) (by omega)
      rw [relaxOne_skip g algo current cc st n0 hnofire]
      exact ih st ⟨vd, hvd1, fun _ => hvd2 (List.mem_cons_self n0 rest)⟩
    · have hkeepc : alookup c (relaxOne g algo current cc st n0).cost =
          alookup c st.cost ∧
          (relaxOne g algo current cc st n0).visual c.1 c.2 =
            st.visual c.1 c.2 := by
        rcases relaxOne_cases g algo current cc st n0 with ⟨_, he⟩ | ⟨_, he⟩
        · rw [he]
          constructor
          · exact alookup_aupdate_ne (fun h => hnc h.symm) (cc + 1) st.cost
          · show (if n0 = g.goal then st.visual else updV st.visual n0 2)
                c.1 c.2 = st.visual c.1 c.2
            by_cases hg : n0 = g.goal
            · rw [if_pos hg]
            · rw [if_neg hg]
              show (if c.1 = n0.1 ∧ c.2 = n0.2 then (2 : Nat)
                  else st.visual c.1 c.2) = st.visual c.1 c.2
              refine if_neg ?_
              rintro ⟨h1, h2⟩
              exact hnc (Prod.ext h1 h2).symm
        · rw [he]
          exact ⟨rfl, rfl⟩
      have hrec := ih (relaxOne g algo current cc st n0)
        ⟨vd, by rw [hkeepc.1]; exact hvd1,
          fun hr => hvd2 (List.mem_cons_of_mem n0 hr)⟩
      rw [hrec, hkeepc.2]

/-- Visited cells are settled (uniform mode): the invariant that makes a
downgrade impossible. -/
def V3 (g : GridM) (st : EState) : Prop :=
  ∀ x y, st.visual x y = 3 →
    ∃ d, isDist g (x, y) d ∧ alookup (x, y) st.cost = some d

theorem step_V3 (g : GridM) {algo : String} (halgo : algo ≠ "astar")
    (s : MState) (hE : EInv g s.st)
    (hUe : s.phase = .expand → UInv g s.st) (hV : V3 g s.st) :
    V3 g (nextS g algo s).st := by
  rcases hph : s.phase with _ | c | _ | _ | _
  · have hU := hUe hph
    rcases step_expand_cases g algo s hph with ⟨hpq0, he⟩ | ⟨e, rest, hpq, hcase⟩
    · rw [he, enterRecon_st]
      exact hV
    rcases hcase with ⟨hg, he⟩ | ⟨hg, cc, hcc, he⟩ | ⟨hg, hcc, hn, he⟩ | ⟨hg, hcc, hn, he⟩
    · rw [he, enterRecon_st]
      intro x y h
      exact hV x y h
    · obtain ⟨dc, hdc, hdcc⟩ := settled_pop g s.st e rest hE hU hpq
      rw [hcc] at hdcc
      have hdceq : cc = dc := Option.some_inj.1 hdcc
      have hcur : isDist g (minE e rest).2 cc := by
        rw [hdceq]
        exact hdc
      rw [he]
      intro x y h
      have hU3 : UInv g ((get_neighbors g (minE e rest).2).foldl
          (relaxOne g algo (minE e rest).2 cc)
          (markVisit g (minE e rest).2
            { s.st with pq := (e :: rest).erase (minE e rest) })) := by
        refine relax_UInv g halgo s.st
          (markVisit g (minE e rest).2
            { s.st with pq := (e :: rest).erase (minE e rest) })
          (minE e rest).2 (markVisit_cost g _ _) (markVisit_came g _ _) ?_
          hU cc hcc hcur hE.costStart
        intro x2 hx2 hxne
        rw [markVisit_pq]
        show x2 ∈ (e :: rest).erase (minE e rest)
        refine (List.mem_erase_of_ne ?_).2 ?_
        · intro hEq
          exact hxne (congrArg Prod.snd hEq)
        · rw [← hpq]
          exact hx2
      have hmono : costMono s.st.cost ((get_neighbors g (minE e rest).2).foldl
          (relaxOne g algo (minE e rest).2 cc)
          (markVisit g (minE e rest).2
            { s.st with pq := (e :: rest).erase (minE e rest) })).cost := by
        have h2 := foldRelax_costMono g algo (minE e rest).2 cc
          (get_neighbors g (minE e rest).2)
          (markVisit g (minE e rest).2
            { s.st with pq := (e :: rest).erase (minE e rest) })
        rw [markVisit_cost] at h2
        exact h2
      have hkeep : ∀ c2 d2, isDist g c2 d2 → alookup c2 s.st.cost = some d2 →
          alookup c2 ((get_neighbors g (minE e rest).2).foldl
            (relaxOne g algo (minE e rest).2 cc)
            (markVisit g (minE e rest).2
              { s.st with pq := (e :: rest).erase (minE e rest) })).cost =
            some d2 := by
        intro c2 d2 ha hb
        obtain ⟨w, hw, hwle⟩ := hmono c2 d2 hb
        obtain ⟨d3, hd3, hd3le⟩ := hU3.costDist c2 w hw
        have hde : d3 = d2 := isDist_unique hd3 ha
        have hwd : w = d2 := by omega
        rw [hwd] at hw
        exact hw
      have h2 : (markVisit g (minE e rest).2
          { s.st with pq := (e :: rest).erase (minE e rest) }).visual x y = 3 :=
        foldRelax_visual_eq3 g algo (minE e rest).2 cc _ _ x y h
      rcases markVisit_visual_cases g (minE e rest).2
          { s.st with pq := (e :: rest).erase (minE e rest) } x y with
        h3 | ⟨_, hx, hy, _⟩
      · have h4 : s.st.visual x y = 3 := by
          rw [← h3]
          exact h2
        obtain ⟨d2, hd2a, hd2b⟩ := hV x y h4
        exact ⟨d2, hd2a, hkeep (x, y) d2 hd2a hd2b⟩
      · have hxy : ((x, y) : Coord) = (minE e rest).2 := by
          rw [hx, hy]
        refine ⟨cc, ?_, ?_⟩
        · rw [hxy]
          exact hcur
        · rw [hxy]
          exact hkeep (minE e rest).2 cc hcur hcc
    · exfalso
      obtain ⟨v, hv, _⟩ := hE.pqCost (minE e rest).1 (minE e rest).2
        (by rw [hpq, Prod.mk.eta]; exact minE_mem e rest)
      rw [hv] at hcc
      cases hcc
    · exfalso
      obtain ⟨v, hv, _⟩ := hE.pqCost (minE e rest).1 (minE e rest).2
        (by rw [hpq, Prod.mk.eta]; exact minE_mem e rest)
      rw [hv] at hcc
      cases hcc
  · rcases step_recon_cases g algo s c hph with ⟨_, he⟩ | ⟨_, p, _, he⟩ | ⟨_, _, he⟩
    · rw [he]
      intro x y h
      have h2 : updV s.st.visual g.start 4 x y = 3 := h
      rcases updV_cases s.st.visual g.start 4 x y with h5 | h5
      · rw [h5] at h2
        obtain ⟨d2, ha, hb⟩ := hV x y h2
        exact ⟨d2, ha, hb⟩
      · rw [h5] at h2
        simp at h2
    · rw [he]
      intro x y h
      have h2 : updV s.st.visual c 4 x y = 3 := h
      rcases updV_cases s.st.visual c 4 x y with h5 | h5
      · rw [h5] at h2
        obtain ⟨d2, ha, hb⟩ := hV x y h2
        exact ⟨d2, ha, hb⟩
      · rw [h5] at h2
        simp at h2
    · rw [he]
      intro x y h
      have h2 : updV s.st.visual c 4 x y = 3 := h
      rcases updV_cases s.st.visual c 4 x y with h5 | h5
      · rw [h5] at h2
        obtain ⟨d2, ha, hb⟩ := hV x y h2
        exact ⟨d2, ha, hb⟩
      · rw [h5] at h2
        simp at h2
  · rw [step_preDone g algo s hph]
    exact hV
  · rw [step_done g algo s hph]
    exact hV
  · rw [step_errSt g algo s hph]
    exact hV

theorem iterM_V3 (g : GridM) {algo : String} (halgo : algo ≠ "astar")
    (hbin : ∀ x y, g.grid x y ≤ 1) (n : Nat) : V3 g (iterM g algo n).st := by
  induction n with
  | zero =>
    intro x y h
    have h2 : g.grid x y = 3 := h
    have h3 := hbin x y
    omega
  | succ n ih =>
    exact step_V3 g halgo (iterM g algo n) (iterM_EInv g algo n)
      (fun hph => iterM_UInv g halgo n hph) ih

/-- In uniform mode a visited cell is never written back to the frontier
value on the next step. -/
theorem step_no_downgrade (g : GridM) (algo : String)
    (s : MState) (hE : EInv g s.st) (hUe : s.phase = .expand → UInv g s.st)
    (hV : V3 g s.st) (x y : Nat) (h3 : s.st.visual x y = 3) :
    (nextS g algo s).st.visual x y ≠ 2 := by
  rcases hph : s.phase with _ | c | _ | _ | _
  · have hU := hUe hph
    rcases step_expand_cases g algo s hph with ⟨hpq0, he⟩ | ⟨e, rest, hpq, hcase⟩
    · rw [he, enterRecon_st, h3]
      decide
    rcases hcase with ⟨hg, he⟩ | ⟨hg, cc, hcc, he⟩ | ⟨hg, hcc, hn, he⟩ | ⟨hg, hcc, hn, he⟩
    · rw [he, enterRecon_st]
      show s.st.visual x y ≠ 2
      rw [h3]
      decide
    · obtain ⟨dc, hdc, hdcc⟩ := settled_pop g s.st e rest hE hU hpq
      rw [hcc] at hdcc
      have hdceq : cc = dc := Option.some_inj.1 hdcc
      have hcur : isDist g (minE e rest).2 cc := by
        rw [hdceq]
        exact hdc
      obtain ⟨d2, hd2a, hd2b⟩ := hV x y h3
      rw [he]
      show ((get_neighbors g (minE e rest).2).foldl
        (relaxOne g algo (minE e rest).2 cc)
        (markVisit g (minE e rest).2
          { s.st with pq := (e :: rest).erase (minE e rest) })).visual x y ≠ 2
      have hkeepv : ((get_neighbors g (minE e rest).2).foldl
          (relaxOne g algo (minE e rest).2 cc)
          (markVisit g (minE e rest).2
            { s.st with pq := (e :: rest).erase (minE e rest) })).visual x y =
          (markVisit g (minE e rest).2
            { s.st with pq := (e :: rest).erase (minE e rest) }).visual x y := by
        refine foldRelax_visual_keep g algo (minE e rest).2 cc
          (get_neighbors g (minE e rest).2)
          (markVisit g (minE e rest).2
            { s.st with pq := (e :: rest).erase (minE e rest) })
          (x, y) ⟨d2, ?_, ?_⟩
        · rw [markVisit_cost]
          exact hd2b
        · intro hmem
          obtain ⟨dw, hdw, hdwle⟩ := isDist_neighbor_le hcur hmem
          have hde : dw = d2 := isDist_unique hdw hd2a
          omega
      rw [hkeepv]
      rcases markVisit_visual_cases g (minE e rest).2
          { s.st with pq := (e :: rest).erase (minE e rest) } x y with
        h4 | ⟨h4, _, _, _⟩
      · rw [h4]
        show s.st.visual x y ≠ 2
        rw [h3]
        decide
      · rw [h4]
        decide
    · exfalso
      obtain ⟨v, hv, _⟩ := hE.pqCost (minE e rest).1 (minE e rest).2
        (by rw [hpq, Prod.mk.eta]; exact minE_mem e rest)
      rw [hv] at hcc
      cases hcc
    · exfalso
      obtain ⟨v, hv, _⟩ := hE.pqCost (minE e rest).1 (minE e rest).2
        (by rw [hpq, Prod.mk.eta]; exact minE_mem e rest)
      rw [hv] at hcc
      cases hcc
  · rcases step_recon_cases g algo s c hph with ⟨_, he⟩ | ⟨_, p, _, he⟩ | ⟨_, _, he⟩
    · rw [he]
      intro hcon
      have h2 : updV s.st.visual g.start 4 x y = 2 := hcon
      rcases updV_cases s.st.visual g.start 4 x y with h5 | h5
      · rw [h5, h3] at h2
        simp at h2
      · rw [h5] at h2
        simp at h2
    · rw [he]
      intro hcon
      have h2 : updV s.st.visual c 4 x y = 2 := hcon
      rcases updV_cases s.st.visual c 4 x y with h5 | h5
      · rw [h5, h3] at h2
        simp at h2
      · rw [h5] at h2
        simp at h2
    · rw [he]
      intro hcon
      have h2 : updV s.st.visual c 4 x y = 2 := hcon
      rcases updV_cases s.st.visual c 4 x y with h5 | h5
      · rw [h5, h3] at h2
        simp at h2
      · rw [h5] at h2
        simp at h2
  · rw [step_preDone g algo s hph]
    show s.st.visual x y ≠ 2
    rw [h3]
    decide
  · rw [step_done g algo s hph]
    show s.st.visual x y ≠ 2
    rw [h3]
    decide
  · rw [step_errSt g algo s hph]
    show s.st.visual x y ≠ 2
    rw [h3]
    decide

/-- C2 (amended): the engine writes `cellState[n] = frontier` for **every**
firing relaxation of a non-goal neighbor, with no visited check; in uniform
mode a visited cell can never be relaxed again, so no visited cell is ever
downgraded back to frontier there (the weighted mode does downgrade, see the
counterexample). -/
theorem c2_frontier_marking_amended :
    (∀ (g : GridM) (algo : String) (current : Coord) (cc : Nat) (st : EState)
        (n : Coord), fires cc st.cost n → n ≠ g.goal →
      (relaxOne g algo current cc st n).visual n.1 n.2 = 2) ∧
    (∀ (g : GridM) (algo : String), algo ≠ "astar" →
      (∀ x y, g.grid x y ≤ 1) → ∀ (n : Nat) (x y : Nat),
        (iterM g algo n).st.visual x y = 3 →
        (iterM g algo (n + 1)).st.visual x y ≠ 2) := by
  constructor
  · exact relaxOne_sets_frontier
  · intro g algo halgo hbin n x y h3
    exact step_no_downgrade g algo (iterM g algo n) (iterM_EInv g algo n)
      (fun hph => iterM_UInv g halgo n hph) (iterM_V3 g halgo hbin n) x y h3

theorem c2_frontier_marking_amended_witness :
    (fires 0 (initE gEmpty5).cost (0, 1) ∧
      (relaxOne gEmpty5 "dijkstra" (0, 0) 0 (initE gEmpty5) (0, 1)).visual
        0 1 = 2) ∧
    ((iterM gEmpty5 "dijkstra" 2).st.visual 0 1 = 3 ∧
      (iterM gEmpty5 "dijkstra" 3).st.visual 0 1 ≠ 2) :=
  ⟨⟨by decide, c2_frontier_marking_amended.1 gEmpty5 "dijkstra" (0, 0) 0
      (initE gEmpty5) (0, 1) (by decide) (by decide)⟩,
    ⟨by decide, c2_frontier_marking_amended.2 gEmpty5 "dijkstra" (by decide)
      (by
        intro x y
        simp [gEmpty5, wallGrid]) 2 0 1 (by decide)⟩⟩
